import Mathlib


/-!
# Verification development for the WebRTC example programs

Two Go programs are embedded here:

* `twitch/main.go`: ingests VP8/Opus from a browser, re-muxes it to WebM and
  pipes it to an `ffmpeg` process;
* `play-from-disk-h264/main.go`: plays an H.264 file and an Ogg/Opus file to a
  browser.

Go values are embedded as follows.  A `byte` is a `Fin 256`, a Go `string` or
`[]byte` is a `List Byte`, `int64`/`time.Duration` is an `Int` kept in range by
`wrapInt64`, `uint`/`uint64` is a `Nat` reduced modulo `2 ^ 64`.  A function
that may panic returns `Except Panic _`.
-/

/-- A Go `byte`. -/
abbrev Byte := Fin 256

/-- A Go `string` (an immutable sequence of bytes, not necessarily UTF-8). -/
abbrev GoString := List Byte

/-- Conversion `byte(n)` of an unsigned integer: the low eight bits. -/
def Byte.ofNat (n : Nat) : Byte := ⟨n % 256, Nat.mod_lt n (by decide)⟩

/-- The bytes of an ASCII string literal of the source. -/
def ascii (s : String) : GoString := s.toList.map (fun c => Byte.ofNat c.toNat)

/-- Reasons for which the programs terminate abnormally. -/
inductive Panic where
  /-- `panic("example requires stream-key to be passed as an argument")` -/
  | missingStreamKey
  /-- a slice index out of range (Go run-time panic) -/
  | indexOutOfRange
  /-- `ffmpeg.Start` or `webm.NewSimpleBlockWriter` returned an error -/
  | ffmpegStart
  /-- `BlockWriter.Write` returned an error -/
  | blockWrite
  /-- `base64.StdEncoding.DecodeString` returned an error -/
  | base64Corrupt
  /-- `json.Unmarshal` returned an error -/
  | jsonUnmarshal
  /-- `json.Marshal` returned an error -/
  | jsonMarshal
  deriving DecidableEq, Repr

/-- Reduction of an integer to the range of Go's `int64` (two's complement). -/
def wrapInt64 (x : Int) : Int := (x + 2 ^ 63) % 2 ^ 64 - 2 ^ 63

/-- Go's integer division `a / b` on `int64`, which truncates toward zero.  (The
only overflowing case, `MinInt64 / -1`, does not arise: every divisor in the
programs is the positive constant `time.Millisecond`.) -/
def goDiv (a b : Int) : Int := Int.tdiv a b

/-- The constant `time.Millisecond`, in nanoseconds. -/
def millisecond : Int := 1000000

namespace Twitch

/-! ## Command line (`main`, lines 38-42) and the ffmpeg command (`startFFmpeg`) -/

/-- The start of `main`: `os.Args` must have length 2, and `streamKey` becomes
`os.Args[1]`.  The result is the value of the global `streamKey`. -/
def parseArgs (args : List GoString) : Except Panic GoString :=
  if args.length ≠ 2 then
    .error .missingStreamKey
  else
    match args with
    | [_, key] => .ok key
    | _ => .error .indexOutOfRange

/-- The value of `fmt.Sprintf("rtmp://live.twitch.tv/app/%s", streamKey)`. -/
def ingestURL (streamKey : GoString) : GoString :=
  ascii "rtmp://live.twitch.tv/app/" ++ streamKey

/-- The argument list handed to `exec.Command("ffmpeg", ...)` in `startFFmpeg`. -/
def ffmpegArgs (streamKey : GoString) : List GoString :=
  (["-re", "-i", "pipe:0", "-c:v", "libx264", "-preset", "veryfast", "-maxrate", "3000k",
    "-bufsize", "6000k", "-pix_fmt", "yuv420p", "-g", "50", "-c:a", "aac", "-b:a", "160k",
    "-ac", "2", "-ar", "44100", "-f", "flv"].map ascii) ++ [ingestURL streamKey]

/-! ## VP8 header inspection (`pushVP8`, lines 231-237) -/

/-- Go's slice indexing `data[i]`, which panics when `i` is out of range. -/
def index (data : List Byte) (i : Nat) : Except Panic Byte :=
  match data[i]? with
  | some b => .ok b
  | none => .error .indexOutOfRange

/-- `videoKeyframe := (sample.Data[0]&0x1 == 0)`. -/
def videoKeyframe (data : List Byte) : Except Panic Bool := do
  let b0 ← index data 0
  pure (b0.val &&& 0x1 == 0)

/-- `raw := uint(Data[6]) | uint(Data[7])<<8 | uint(Data[8])<<16 | uint(Data[9])<<24`
on a 64-bit `uint`. -/
def rawDimensions (data : List Byte) : Except Panic Nat := do
  let b6 ← index data 6
  let b7 ← index data 7
  let b8 ← index data 8
  let b9 ← index data 9
  pure ((b6.val ||| ((b7.val <<< 8) % 2 ^ 64) ||| ((b8.val <<< 16) % 2 ^ 64)
    ||| ((b9.val <<< 24) % 2 ^ 64)))

/-- `width := int(raw & 0x3FFF)`. -/
def widthOf (raw : Nat) : Nat := raw &&& 0x3FFF

/-- `height := int((raw >> 16) & 0x3FFF)`. -/
def heightOf (raw : Nat) : Nat := (raw >>> 16) &&& 0x3FFF

/-- The pair `(width, height)` computed for a keyframe. -/
def frameSize (data : List Byte) : Except Panic (Nat × Nat) := do
  let raw ← rawDimensions data
  pure (widthOf raw, heightOf raw)

/-! ## The re-muxer state machine (`startFFmpeg`, `pushOpus`, `pushVP8`) -/

/-- A `media.Sample` as far as the program reads it. -/
structure Sample where
  /-- `sample.Data` -/
  data : List Byte
  /-- `sample.Duration`, in nanoseconds -/
  duration : Int
  deriving DecidableEq, Repr

/-- One sample returned by `Pop`, together with the answers of the environment
while that sample is handled. -/
structure Popped where
  /-- the sample returned by `Pop` -/
  sample : Sample
  /-- `ffmpeg.Start` or `webm.NewSimpleBlockWriter` fails if called now -/
  ffmpegFails : Bool
  /-- `Write` on a block writer fails if called now -/
  writeFails : Bool
  deriving DecidableEq, Repr

/-- Calls made to the outside world, recorded in order. -/
inductive Event where
  /-- a call `startFFmpeg(width, height)` -/
  | startFFmpeg (width height : Nat)
  /-- a call `audioWriter.Write(true, timestamp, sample.Data)` -/
  | audioWrite (timestamp : Int) (sample : Sample)
  /-- a call `videoWriter.Write(keyframe, timestamp, sample.Data)` -/
  | videoWrite (keyframe : Bool) (timestamp : Int) (sample : Sample)
  deriving DecidableEq, Repr

/-- The package-level variables of `twitch/main.go`, the record of the calls
made so far (oldest first) and the panic that ended the run, if any. -/
structure State where
  /-- `audioWriter`; `none` is `nil`, `some n` the writer of track number `n` -/
  audioWriter : Option Nat
  /-- `videoWriter` -/
  videoWriter : Option Nat
  /-- `audioTimestamp` -/
  audioTimestamp : Int
  /-- `videoTimestamp` -/
  videoTimestamp : Int
  /-- the calls made so far -/
  log : List Event
  /-- the panic that terminated the process -/
  panicked : Option Panic
  deriving DecidableEq, Repr

/-- The state at program start: all package-level variables are zero values. -/
def State.init : State :=
  { audioWriter := none, videoWriter := none, audioTimestamp := 0, videoTimestamp := 0,
    log := [], panicked := none }

/-- The function `startFFmpeg(width, height)`: it panics when the process or the
block writer cannot be created, and otherwise sets `audioWriter = ws[0]` and
`videoWriter = ws[1]`. -/
def startFFmpeg (st : State) (width height : Nat) (fails : Bool) : State :=
  let st1 := { st with log := st.log ++ [Event.startFFmpeg width height] }
  if fails then
    { st1 with panicked := some .ffmpegStart }
  else
    { st1 with audioWriter := some 1, videoWriter := some 2 }

/-- The body of the `for` loop of `pushOpus` for one popped sample. -/
def stepOpus (st : State) (p : Popped) : State :=
  if st.panicked.isSome then st
  else if st.audioWriter.isSome then
    let ts := wrapInt64 (st.audioTimestamp + p.sample.duration)
    let st1 := { st with audioTimestamp := ts,
                         log := st.log ++ [Event.audioWrite (goDiv ts millisecond) p.sample] }
    if p.writeFails then { st1 with panicked := some .blockWrite } else st1
  else st

/-- The part of the loop body of `pushVP8` after the header inspection
(lines 244-249). -/
def writeVP8 (st : State) (keyframe : Bool) (p : Popped) : State :=
  if st.panicked.isSome then st
  else if st.videoWriter.isSome then
    let ts := wrapInt64 (st.videoTimestamp + p.sample.duration)
    let st1 := { st with videoTimestamp := ts,
                         log := st.log ++ [Event.videoWrite keyframe (goDiv ts millisecond) p.sample] }
    if p.writeFails then { st1 with panicked := some .blockWrite } else st1
  else st

/-- The body of the `for` loop of `pushVP8` for one popped sample. -/
def stepVP8 (st : State) (p : Popped) : State :=
  if st.panicked.isSome then st
  else
    match videoKeyframe p.sample.data with
    | .error e => { st with panicked := some e }
    | .ok false => writeVP8 st false p
    | .ok true =>
      match frameSize p.sample.data with
      | .error e => { st with panicked := some e }
      | .ok (width, height) =>
        if st.videoWriter.isNone || st.audioWriter.isNone then
          writeVP8 (startFFmpeg st width height p.ffmpegFails) true p
        else
          writeVP8 st true p

/-- A call of `pushOpus` or `pushVP8`, given by the samples that the sample
builder returns from `Pop` before it returns `nil`. -/
inductive Call where
  /-- `pushOpus(rtpPacket)` -/
  | pushOpus (popped : List Popped)
  /-- `pushVP8(rtpPacket)` -/
  | pushVP8 (popped : List Popped)
  deriving DecidableEq, Repr

/-- The function `pushOpus`. -/
def pushOpus (st : State) (popped : List Popped) : State := popped.foldl stepOpus st

/-- The function `pushVP8`. -/
def pushVP8 (st : State) (popped : List Popped) : State := popped.foldl stepVP8 st

/-- One call. -/
def call (st : State) : Call → State
  | .pushOpus popped => pushOpus st popped
  | .pushVP8 popped => pushVP8 st popped

/-- A run of the program: a sequence of calls from the initial state. -/
def run (calls : List Call) : State := calls.foldl call State.init

/-- The `startFFmpeg` calls of a log. -/
def startCalls (log : List Event) : List (Nat × Nat) :=
  log.filterMap (fun e => match e with
    | .startFFmpeg w h => some (w, h)
    | _ => none)

/-- The audio writes of a log: timestamp and sample. -/
def audioWrites (log : List Event) : List (Int × Sample) :=
  log.filterMap (fun e => match e with
    | .audioWrite ts s => some (ts, s)
    | _ => none)

/-- The video writes of a log: timestamp and sample. -/
def videoWrites (log : List Event) : List (Int × Sample) :=
  log.filterMap (fun e => match e with
    | .videoWrite _ ts s => some (ts, s)
    | _ => none)

/-- The running sums, in `int64` arithmetic from 0, of a list of durations. -/
def runningSums (acc : Int) : List Int → List Int
  | [] => []
  | d :: ds => wrapInt64 (acc + d) :: runningSums (wrapInt64 (acc + d)) ds

/-- The invariant of the re-muxer: both writers are set or both are unset,
`startFFmpeg` has been called once when they are set, and not at all when they
are unset and the run has not panicked. -/
def WriterInv (st : State) : Prop :=
  st.audioWriter.isSome = st.videoWriter.isSome ∧
  (st.audioWriter.isSome = true → (startCalls st.log).length = 1) ∧
  (st.audioWriter.isSome = false → st.panicked = none → (startCalls st.log).length = 0) ∧
  (startCalls st.log).length ≤ 1

/-- The exact (unbounded) running sums of a list of durations. -/
def prefixSums (acc : Int) : List Int → List Int
  | [] => []
  | d :: ds => (acc + d) :: prefixSums (acc + d) ds

/-- The value of a timestamp variable after adding the given durations in turn. -/
def total (acc : Int) (ds : List Int) : Int := ds.foldl (fun a d => wrapInt64 (a + d)) acc

/-- The timestamps handed to `Write` when samples of the given durations are
written in turn, starting from the timestamp variable `acc`. -/
def stamps (acc : Int) (ds : List Int) : List Int :=
  (runningSums acc ds).map (fun s => goDiv s millisecond)

/-- The timestamp invariant of one track: the timestamp variable is the `int64`
sum of the durations of the samples written so far, and the timestamps written
are the running sums divided by a millisecond. -/
def StampInv (ts : Int) (writes : List (Int × Sample)) : Prop :=
  ts = total 0 (writes.map (fun x => x.2.duration)) ∧
  writes.map Prod.fst = stamps 0 (writes.map (fun x => x.2.duration))

/-- The samples popped during a run, in order, each marked with its track
(`true` for the video track). -/
def popped : List Call → List (Bool × Popped)
  | [] => []
  | .pushOpus ps :: cs => ps.map (fun p => (false, p)) ++ popped cs
  | .pushVP8 ps :: cs => ps.map (fun p => (true, p)) ++ popped cs

/-- One iteration of the loop of `pushVP8` (for a sample marked `true`) or of
`pushOpus`. -/
def stepTrack (st : State) (x : Bool × Popped) : State :=
  if x.1 then stepVP8 st x.2 else stepOpus st x.2

/-- The sample is a video keyframe: it is on the video track and the lowest bit
of its first byte is 0. -/
def isKeyframe (x : Bool × Popped) : Bool :=
  x.1 && (match x.2.sample.data with
    | b :: _ => b.val % 2 == 0
    | [] => false)

/-- Nothing goes wrong while the sample is handled: the transcoder starts, the
write succeeds, a video sample is not empty and a video keyframe has the ten
bytes of its header. -/
def clean (x : Bool × Popped) : Bool :=
  !x.2.ffmpegFails && !x.2.writeFails &&
    (!x.1 || (decide (x.2.sample.data ≠ []) &&
      (!isKeyframe x || decide (10 ≤ x.2.sample.data.length))))

/-- The popped samples from the first video keyframe on. -/
def fromFirstKeyframe (l : List (Bool × Popped)) : List (Bool × Popped) :=
  l.dropWhile (fun x => !isKeyframe x)

/-- The samples that the claim takes to be written to the audio track: the audio
samples popped after the first video keyframe. -/
def writtenAudio (calls : List Call) : List Sample :=
  ((fromFirstKeyframe (popped calls)).filter (fun x => !x.1)).map (fun x => x.2.sample)

/-- The samples written to the video track: the first video keyframe and the
video samples popped after it. -/
def writtenVideo (calls : List Call) : List Sample :=
  ((fromFirstKeyframe (popped calls)).filter (fun x => x.1)).map (fun x => x.2.sample)

/-- The timestamps of the claim for samples written in turn: the floor of each
exact running sum of the durations over one millisecond. -/
def floorStamps (samples : List Sample) : List Int :=
  (prefixSums 0 (samples.map (fun s => s.duration))).map (fun s => s / 1000000)

/-- An Opus sample and an interframe that arrive before the first keyframe, a
keyframe of 640 x 480 lasting 33 ms, then two Opus samples of 20 ms and an
interframe of 33 ms and 1 µs. -/
def mixedRun : List Call :=
  [ .pushOpus [⟨⟨[0x78], 20000000⟩, false, false⟩],
    .pushVP8 [⟨⟨[0x11, 0x02, 0x00], 33000000⟩, false, false⟩],
    .pushVP8 [⟨⟨[0x10, 0x02, 0x00, 0x9d, 0x01, 0x2a, 0x80, 0x02, 0xe0, 0x01], 33000000⟩,
      false, false⟩],
    .pushOpus [⟨⟨[0x78], 20000000⟩, false, false⟩, ⟨⟨[0x79], 20000000⟩, false, false⟩],
    .pushVP8 [⟨⟨[0x31, 0x02, 0x00], 33001000⟩, false, false⟩] ]

end Twitch

/-! ## Reading the offer from standard input (`readUntilNewline`)

The function is the same, line for line, in `twitch/main.go` (253-272) and in
`play-from-disk-h264/main.go` (258-277).  Standard input is a finite sequence of
bytes followed by end of file; the only read error is then `io.EOF`, which the
function ignores. -/

namespace Signal

/-- The UTF-8 encodings of the code points for which `unicode.IsSpace` holds:
`\t`, `\n`, `\v`, `\f`, `\r`, space, U+0085, U+00A0, U+1680, U+2000 to U+200A,
U+2028, U+2029, U+202F, U+205F and U+3000. -/
def spaceEncodings : List (List Byte) :=
  [[0x09], [0x0A], [0x0B], [0x0C], [0x0D], [0x20], [0xC2, 0x85], [0xC2, 0xA0],
   [0xE1, 0x9A, 0x80],
   [0xE2, 0x80, 0x80], [0xE2, 0x80, 0x81], [0xE2, 0x80, 0x82], [0xE2, 0x80, 0x83],
   [0xE2, 0x80, 0x84], [0xE2, 0x80, 0x85], [0xE2, 0x80, 0x86], [0xE2, 0x80, 0x87],
   [0xE2, 0x80, 0x88], [0xE2, 0x80, 0x89], [0xE2, 0x80, 0x8A],
   [0xE2, 0x80, 0xA8], [0xE2, 0x80, 0xA9], [0xE2, 0x80, 0xAF], [0xE2, 0x81, 0x9F],
   [0xE3, 0x80, 0x80]]

/-- When `s` begins with one of the encodings `encs`, the rest of `s` after it. -/
def stripFirst (encs : List (List Byte)) (s : List Byte) : Option (List Byte) :=
  match encs with
  | [] => none
  | e :: es => if e.isPrefixOf s then some (s.drop e.length) else stripFirst es s

/-- When `s` begins with a white-space character, the rest of `s` after it. -/
def stripLeading (s : List Byte) : Option (List Byte) := stripFirst spaceEncodings s

/-- When `s` ends with a white-space character, the part of `s` before it. -/
def stripTrailing (s : List Byte) : Option (List Byte) :=
  (stripFirst (spaceEncodings.map List.reverse) s.reverse).map List.reverse

/-- At most `n` rounds of removing a leading white-space character. -/
def trimLeftAux : Nat → List Byte → List Byte
  | 0, s => s
  | n + 1, s =>
    match stripLeading s with
    | some rest => trimLeftAux n rest
    | none => s

/-- At most `n` rounds of removing a trailing white-space character. -/
def trimRightAux : Nat → List Byte → List Byte
  | 0, s => s
  | n + 1, s =>
    match stripTrailing s with
    | some rest => trimRightAux n rest
    | none => s

/-- `strings.TrimLeftFunc(s, unicode.IsSpace)`. -/
def trimLeft (s : List Byte) : List Byte := trimLeftAux s.length s

/-- `strings.TrimRightFunc(s, unicode.IsSpace)`. -/
def trimRight (s : List Byte) : List Byte := trimRightAux s.length s

/-- `strings.TrimSpace(s)`: the string without its leading and trailing white
space, as defined by Unicode. -/
def trimSpace (s : List Byte) : List Byte := trimRight (trimLeft s)

/-- `r.ReadString('\n')` on the unread input: the bytes up to and including the
first newline (all of the input when there is none, with `io.EOF`), and the
input left unread.  Once the input is exhausted every call returns the empty
string. -/
def readString : List Byte → List Byte × List Byte
  | [] => ([], [])
  | b :: rest =>
    if b = 0x0A then ([b], rest)
    else ((b :: (readString rest).1), (readString rest).2)

/-- The `for` loop of `readUntilNewline`, run for at most `fuel` iterations on
the unread input: `some (in, rest)` when the loop breaks with the value `in`,
leaving `rest` unread, and `none` when it is still running after `fuel`
iterations. -/
def readLoop : Nat → List Byte → Option (List Byte × List Byte)
  | 0, _ => none
  | fuel + 1, input =>
    let line := (readString input).1
    let rest := (readString input).2
    let trimmed := trimSpace line
    if trimmed.length > 0 then some (trimmed, rest) else readLoop fuel rest

/-- The function `readUntilNewline` returns `v` on the input. -/
def ReadsLine (input v : List Byte) : Prop := ∃ fuel rest, readLoop fuel input = some (v, rest)

/-- The lines of the input, as the successive results of `ReadString('\n')`
until the input is exhausted: each ends with a newline, except possibly the
last. -/
def splitLines : List Byte → List (List Byte)
  | [] => []
  | b :: rest =>
    if b = 0x0A then [b] :: splitLines rest
    else
      match splitLines rest with
      | [] => [[b]]
      | l :: ls => (b :: l) :: ls

/-- The string consists of white-space characters only. -/
def AllSpace (s : List Byte) : Prop :=
  ∃ es : List (List Byte), (∀ e ∈ es, e ∈ spaceEncodings) ∧ s = es.flatten

end Signal

/-! ## Ogg page durations (`play-from-disk-h264/main.go`, lines 169-195)

The duration of a page is computed in `float64`.  A finite non-negative
`float64` is embedded exactly, as a significand and a binary exponent, and each
arithmetic operation is the exact operation followed by rounding to the nearest
value with a 53-bit significand, ties to even (IEEE 754 binary64).  The values
that arise from a `uint64` sample count lie between `2 ^ (-16)` and `2 ^ 64`,
well inside the normal range, so the exponent range is not embedded. -/

namespace PlayFromDisk

/-- A finite non-negative `float64` value, `m * 2 ^ e`. -/
structure F64 where
  /-- significand, at most `2 ^ 53` -/
  m : Nat
  /-- binary exponent -/
  e : Int
  deriving DecidableEq, Repr

/-- The rational number that a `float64` value stands for. -/
def F64.val (x : F64) : ℚ := (x.m : ℚ) * (2 : ℚ) ^ x.e

/-- At most `fuel` halvings of `n` until it is below 2. -/
def log2Aux : Nat → Nat → Nat
  | 0, _ => 0
  | fuel + 1, n => if n < 2 then 0 else log2Aux fuel (n / 2) + 1

/-- The position of the highest set bit of `n` (0 for `n = 0`). -/
def log2 (n : Nat) : Nat := log2Aux n n

/-- The integer `k` with `2 ^ k ≤ num / den < 2 ^ (k + 1)`, for positive `num`
and `den`. -/
def floorLog (num den : Nat) : Int :=
  let t : Int := (log2 num : Int) - (log2 den : Int)
  if (if 0 ≤ t then den * 2 ^ t.toNat ≤ num else den ≤ num * 2 ^ (-t).toNat) then t else t - 1

/-- The integer nearest to `n / d` (ties to the even one), as the significand of
a value with exponent `e`. -/
def roundNearest (n d : Nat) (e : Int) : F64 :=
  if 2 * (n % d) > d then ⟨n / d + 1, e⟩
  else if 2 * (n % d) = d then (if (n / d) % 2 = 1 then ⟨n / d + 1, e⟩ else ⟨n / d, e⟩)
  else ⟨n / d, e⟩

/-- The `float64` nearest to the rational `num / den` (ties to even): the
exponent is chosen so that the significand has 53 bits. -/
def roundQuot (num den : Nat) : F64 :=
  if num = 0 ∨ den = 0 then ⟨0, 0⟩
  else
    let e : Int := floorLog num den - 52
    if e < 0 then roundNearest (num * 2 ^ (-e).toNat) den e
    else roundNearest num (den * 2 ^ e.toNat) e

/-- The `float64` nearest to `num / den * 2 ^ e`. -/
def roundScaled (num den : Nat) (e : Int) : F64 :=
  if 0 ≤ e then roundQuot (num * 2 ^ e.toNat) den else roundQuot num (den * 2 ^ (-e).toNat)

/-- The value `x` is a rounding of the positive rational `v` to 53 bits: `v`
scaled by the exponent of `x` has 53 bits, and the significand of `x` is within
one half of it. -/
def IsRounding (x : F64) (v : ℚ) : Prop :=
  (2 : ℚ) ^ 52 ≤ v / 2 ^ x.e ∧ v / 2 ^ x.e < 2 ^ 53 ∧ |(x.m : ℚ) - v / 2 ^ x.e| ≤ 1 / 2

/-- Conversion `float64(n)` of an unsigned integer. -/
def F64.ofNat (n : Nat) : F64 := roundQuot n 1

/-- The `float64` quotient `x / y`. -/
def F64.div (x y : F64) : F64 := roundScaled x.m y.m (x.e - y.e)

/-- The `float64` product `x * y`. -/
def F64.mul (x y : F64) : F64 := roundScaled (x.m * y.m) 1 (x.e + y.e)

/-- Conversion of a `float64` below `2 ^ 63` to `int64`: the fraction is discarded. -/
def F64.trunc (x : F64) : Int :=
  if 0 ≤ x.e then (x.m * 2 ^ x.e.toNat : Nat) else (x.m / 2 ^ (-x.e).toNat : Nat)

/-- `sampleCount := float64(pageHeader.GranulePosition - lastGranule)`, the
subtraction being that of `uint64`. -/
def sampleCount (lastGranule granule : Nat) : Nat := (granule + 2 ^ 64 - lastGranule % 2 ^ 64) % 2 ^ 64

/-- The number of milliseconds `time.Duration((sampleCount/48000)*1000)` for a
count of samples. -/
def pageMillis (samples : Nat) : Int :=
  F64.trunc (F64.mul (F64.div (F64.ofNat samples) (F64.ofNat 48000)) (F64.ofNat 1000))

/-- `sampleDuration`, in nanoseconds: the number of milliseconds times
`time.Millisecond`, in `int64`. -/
def pageDuration (samples : Nat) : Int := wrapInt64 (pageMillis samples * millisecond)

/-- One iteration of the audio loop after a page has been parsed: the duration
handed to `WriteSample` and the new value of `lastGranule`. -/
def pageStep (lastGranule granule : Nat) : Int × Nat :=
  (pageDuration (sampleCount lastGranule granule), granule)

/-- The audio loop over the granule positions of the pages of the file, from
`lastGranule`: the durations handed to `WriteSample`, in order, and the last
value of `lastGranule`. -/
def playPages (lastGranule : Nat) : List Nat → List Int × Nat
  | [] => ([], lastGranule)
  | g :: gs =>
    ((pageStep lastGranule g).1 :: (playPages (pageStep lastGranule g).2 gs).1,
     (playPages (pageStep lastGranule g).2 gs).2)

end PlayFromDisk

/-! ## Signalling: `encode` and `decode`

Both programs contain the same two functions.  They call `encoding/base64`,
`encoding/json` and the `SessionDescription` type of the WebRTC library, which
are not part of the repository; these are embedded here from their documented
behaviour. -/

namespace Signal

/-! ### `base64.StdEncoding` -/

/-- The character of the standard alphabet `A-Z a-z 0-9 + /` for a 6-bit value. -/
def b64Char (i : Nat) : Byte :=
  if i < 26 then Byte.ofNat (65 + i)
  else if i < 52 then Byte.ofNat (97 + (i - 26))
  else if i < 62 then Byte.ofNat (48 + (i - 52))
  else if i = 62 then 43
  else 47

/-- The 6-bit value of a character of the standard alphabet (the decode map). -/
def b64Value (c : Byte) : Option Nat :=
  if 65 ≤ c.val ∧ c.val ≤ 90 then some (c.val - 65)
  else if 97 ≤ c.val ∧ c.val ≤ 122 then some (c.val - 97 + 26)
  else if 48 ≤ c.val ∧ c.val ≤ 57 then some (c.val - 48 + 52)
  else if c.val = 43 then some 62
  else if c.val = 47 then some 63
  else none

/-- The padding character `=`. -/
def padChar : Byte := 61

/-- `base64.StdEncoding.EncodeToString`: three bytes give four characters, and a
last group of one or two bytes is padded with `=`. -/
def base64Encode : List Byte → List Byte
  | [] => []
  | [a] => [b64Char (a.val / 4), b64Char (a.val % 4 * 16), padChar, padChar]
  | [a, b] =>
    [b64Char (a.val / 4), b64Char (a.val % 4 * 16 + b.val / 16), b64Char (b.val % 16 * 4),
      padChar]
  | a :: b :: c :: rest =>
    b64Char (a.val / 4) :: b64Char (a.val % 4 * 16 + b.val / 16)
      :: b64Char (b.val % 16 * 4 + c.val / 64) :: b64Char (c.val % 64) :: base64Encode rest

/-- The decoder ignores carriage returns and line feeds. -/
def dropNewlines (s : List Byte) : List Byte := s.filter (fun c => c ≠ 13 ∧ c ≠ 10)

/-- Decoding of the quanta of four characters; `none` is a `CorruptInputError`.
Padding is accepted in the last quantum only, and the bits of the last character
before the padding that do not fill a byte are ignored (the encoding is not
strict). -/
def decodeQuanta : List Byte → Option (List Byte)
  | [] => some []
  | [c0, c1, c2, c3] =>
    match b64Value c0, b64Value c1, b64Value c2, b64Value c3 with
    | some v0, some v1, some v2, some v3 =>
      some [Byte.ofNat (v0 * 4 + v1 / 16), Byte.ofNat (v1 % 16 * 16 + v2 / 4),
        Byte.ofNat (v2 % 4 * 64 + v3)]
    | some v0, some v1, some v2, none =>
      if c3 = padChar then
        some [Byte.ofNat (v0 * 4 + v1 / 16), Byte.ofNat (v1 % 16 * 16 + v2 / 4)]
      else none
    | some v0, some v1, none, none =>
      if c2 = padChar ∧ c3 = padChar then some [Byte.ofNat (v0 * 4 + v1 / 16)] else none
    | _, _, _, _ => none
  | c0 :: c1 :: c2 :: c3 :: rest =>
    match b64Value c0, b64Value c1, b64Value c2, b64Value c3, decodeQuanta rest with
    | some v0, some v1, some v2, some v3, some bytes =>
      some (Byte.ofNat (v0 * 4 + v1 / 16) :: Byte.ofNat (v1 % 16 * 16 + v2 / 4)
        :: Byte.ofNat (v2 % 4 * 64 + v3) :: bytes)
    | _, _, _, _, _ => none
  | _ => none

/-- `base64.StdEncoding.DecodeString`. -/
def base64Decode (s : List Byte) : Option (List Byte) := decodeQuanta (dropNewlines s)

end Signal

namespace Signal

/-! ### UTF-8 (`unicode/utf8`) -/

/-- `utf8.AppendRune` for a valid code point. -/
def utf8EncodeChar (c : Char) : List Byte :=
  if c.toNat < 0x80 then [Byte.ofNat c.toNat]
  else if c.toNat < 0x800 then
    [Byte.ofNat (0xC0 + c.toNat / 64), Byte.ofNat (0x80 + c.toNat % 64)]
  else if c.toNat < 0x10000 then
    [Byte.ofNat (0xE0 + c.toNat / 4096), Byte.ofNat (0x80 + c.toNat / 64 % 64),
      Byte.ofNat (0x80 + c.toNat % 64)]
  else
    [Byte.ofNat (0xF0 + c.toNat / 262144), Byte.ofNat (0x80 + c.toNat / 4096 % 64),
      Byte.ofNat (0x80 + c.toNat / 64 % 64), Byte.ofNat (0x80 + c.toNat % 64)]

/-- The UTF-8 encoding of a sequence of code points. -/
def utf8Encode (cs : List Char) : List Byte := (cs.map utf8EncodeChar).flatten

/-- The string is valid UTF-8: it is the encoding of a sequence of Unicode
scalar values. -/
def ValidUTF8 (s : GoString) : Prop := ∃ cs : List Char, s = utf8Encode cs

/-- The result of decoding one rune: a code point, or `utf8.RuneError` of width 1
for a byte that does not begin a valid encoding. -/
inductive Rune where
  /-- a valid encoding of the code point -/
  | valid (c : Char)
  /-- an invalid byte -/
  | invalid
  deriving DecidableEq, Repr

/-- A continuation byte, `0x80` to `0xBF`. -/
def isCont (b : Byte) : Bool := 0x80 ≤ b.val && b.val ≤ 0xBF

/-- The range accepted for the second byte after the first byte `b0` of a three-
or four-byte encoding (it excludes overlong forms, surrogates and code points
above U+10FFFF). -/
def acceptSecond (b0 b1 : Byte) : Bool :=
  if b0.val = 0xE0 then 0xA0 ≤ b1.val && b1.val ≤ 0xBF
  else if b0.val = 0xED then 0x80 ≤ b1.val && b1.val ≤ 0x9F
  else if b0.val = 0xF0 then 0x90 ≤ b1.val && b1.val ≤ 0xBF
  else if b0.val = 0xF4 then 0x80 ≤ b1.val && b1.val ≤ 0x8F
  else isCont b1

/-- `utf8.DecodeRune`: the first rune of the input and the input after it. -/
def decodeRune : List Byte → Option (Rune × List Byte)
  | [] => none
  | b0 :: rest =>
    if b0.val < 0x80 then some (.valid (Char.ofNat b0.val), rest)
    else if 0xC2 ≤ b0.val ∧ b0.val ≤ 0xDF then
      match rest with
      | b1 :: rest1 =>
        if isCont b1 then some (.valid (Char.ofNat (b0.val % 32 * 64 + b1.val % 64)), rest1)
        else some (.invalid, rest)
      | _ => some (.invalid, rest)
    else if 0xE0 ≤ b0.val ∧ b0.val ≤ 0xEF then
      match rest with
      | b1 :: b2 :: rest2 =>
        if acceptSecond b0 b1 && isCont b2 then
          some (.valid (Char.ofNat (b0.val % 16 * 4096 + b1.val % 64 * 64 + b2.val % 64)), rest2)
        else some (.invalid, rest)
      | _ => some (.invalid, rest)
    else if 0xF0 ≤ b0.val ∧ b0.val ≤ 0xF4 then
      match rest with
      | b1 :: b2 :: b3 :: rest3 =>
        if acceptSecond b0 b1 && isCont b2 && isCont b3 then
          some (.valid (Char.ofNat (b0.val % 8 * 262144 + b1.val % 64 * 4096
            + b2.val % 64 * 64 + b3.val % 64)), rest3)
        else some (.invalid, rest)
      | _ => some (.invalid, rest)
    else some (.invalid, rest)

/-- At most `n` runes of the input. -/
def runesAux : Nat → List Byte → List Rune
  | 0, _ => []
  | n + 1, s =>
    match decodeRune s with
    | none => []
    | some (r, rest) => r :: runesAux n rest

/-- The runes of a Go string, as a `for range` loop sees them. -/
def runes (s : List Byte) : List Rune := runesAux s.length s

/-- The code point that stands for a rune: `utf8.RuneError` (U+FFFD) for an
invalid byte. -/
def Rune.char : Rune → Char
  | .valid c => c
  | .invalid => Char.ofNat 0xFFFD

end Signal

namespace Signal

/-! ### `webrtc.SessionDescription` -/

/-- The type `webrtc.SDPType` (an `int` with four named values; every other
value is unknown). -/
inductive SDPType where
  /-- the zero value, and every value without a name -/
  | unknown
  /-- `SDPTypeOffer` -/
  | offer
  /-- `SDPTypePranswer` -/
  | pranswer
  /-- `SDPTypeAnswer` -/
  | answer
  /-- `SDPTypeRollback` -/
  | rollback
  deriving DecidableEq, Repr

/-- `SDPType.String`: the name of the type, and `ErrUnknownType.Error()` for a
value without a name. -/
def SDPType.string : SDPType → GoString
  | .offer => ascii "offer"
  | .pranswer => ascii "pranswer"
  | .answer => ascii "answer"
  | .rollback => ascii "rollback"
  | .unknown => ascii "unknown"

/-- The exported fields of `webrtc.SessionDescription`, with the JSON keys
`type` and `sdp`. -/
structure SessionDescription where
  /-- field `Type` -/
  type : SDPType
  /-- field `SDP` -/
  sdp : GoString
  deriving DecidableEq, Repr

/-! ### `json.Marshal` -/

/-- A lower-case hexadecimal digit. -/
def hexDigit (n : Nat) : Byte := if n < 10 then Byte.ofNat (48 + n) else Byte.ofNat (87 + n)

/-- The JSON text for an ASCII byte inside a string: `"` and `\` get a
backslash, `\b \f \n \r \t` their short escapes, the other control characters
and `<`, `>`, `&` the form `\u00XX`. -/
def escapeByte (b : Byte) : List Byte :=
  if b = 0x22 ∨ b = 0x5C then [0x5C, b]
  else if b = 0x08 then [0x5C, 0x62]
  else if b = 0x0C then [0x5C, 0x66]
  else if b = 0x0A then [0x5C, 0x6E]
  else if b = 0x0D then [0x5C, 0x72]
  else if b = 0x09 then [0x5C, 0x74]
  else if b.val < 0x20 ∨ b = 0x26 ∨ b = 0x3C ∨ b = 0x3E then
    [0x5C, 0x75, 0x30, 0x30, hexDigit (b.val / 16), hexDigit (b.val % 16)]
  else [b]

/-- The JSON text for one rune of a string: an invalid byte becomes the three
bytes of U+FFFD (releases of the encoder up to Go 1.24 wrote the six-character
escape of U+FFFD instead), U+2028 and U+2029 are escaped, every other code point
above ASCII is copied. -/
def escapeRune : Rune → List Byte
  | .invalid => [0xEF, 0xBF, 0xBD]
  | .valid c =>
    if c.toNat < 0x80 then escapeByte (Byte.ofNat c.toNat)
    else if c.toNat = 0x2028 ∨ c.toNat = 0x2029 then
      [0x5C, 0x75, 0x32, 0x30, 0x32, hexDigit (c.toNat % 16)]
    else utf8EncodeChar c

/-- The escaped text of at most `n` runes of a string. -/
def appendStringAux : Nat → List Byte → List Byte
  | 0, _ => []
  | n + 1, s =>
    match decodeRune s with
    | none => []
    | some (r, rest) => escapeRune r ++ appendStringAux n rest

/-- The JSON string literal for a Go string (`appendString` of `encoding/json`,
with HTML escaping). -/
def appendString (s : List Byte) : List Byte := 0x22 :: (appendStringAux s.length s ++ [0x22])

/-- The JSON text of a description: `null` for a nil pointer, otherwise the
object with the keys `type` and `sdp`.  The type is marshalled by
`SDPType.MarshalJSON`, the JSON string of its name. -/
def marshalText : Option SessionDescription → List Byte
  | none => ascii "null"
  | some d =>
    [0x7B, 0x22] ++ ascii "type" ++ [0x22, 0x3A] ++ appendString d.type.string
      ++ [0x2C, 0x22] ++ ascii "sdp" ++ [0x22, 0x3A] ++ appendString d.sdp ++ [0x7D]

/-- `json.Marshal(obj)` for `obj *webrtc.SessionDescription`; `none` is an error.
The encoder returns an error for an unsupported type, a cyclic value or a
failing `MarshalJSON`, none of which arises for this type. -/
def marshal (obj : Option SessionDescription) : Option (List Byte) := some (marshalText obj)

/-! ### `json.Unmarshal` -/

/-- A JSON value.  The digits of a number are not kept: no field of the
description takes a number. -/
inductive JValue where
  /-- the literal `null` -/
  | null
  /-- the literals `true` and `false` -/
  | bool (b : Bool)
  /-- a number -/
  | number
  /-- a string, unquoted -/
  | string (s : List Byte)
  /-- an array -/
  | array (xs : List JValue)
  /-- an object, as the sequence of its members -/
  | object (ms : List (List Byte × JValue))

/-- JSON white space: space, tab, carriage return, line feed. -/
def isSpace (b : Byte) : Bool := b = 0x20 || b = 0x09 || b = 0x0D || b = 0x0A

/-- The input after its leading white space. -/
def skipSpace : List Byte → List Byte
  | [] => []
  | b :: rest => if isSpace b then skipSpace rest else b :: rest

/-- The value of a hexadecimal digit of either case. -/
def hexValue (b : Byte) : Option Nat :=
  if 0x30 ≤ b.val ∧ b.val ≤ 0x39 then some (b.val - 0x30)
  else if 0x61 ≤ b.val ∧ b.val ≤ 0x66 then some (b.val - 0x61 + 10)
  else if 0x41 ≤ b.val ∧ b.val ≤ 0x46 then some (b.val - 0x41 + 10)
  else none

/-- Four hexadecimal digits (`getu4` after `\u`): their value and the rest. -/
def getu4 : List Byte → Option (Nat × List Byte)
  | a :: b :: c :: d :: rest =>
    match hexValue a, hexValue b, hexValue c, hexValue d with
    | some x, some y, some z, some w => some (((x * 16 + y) * 16 + z) * 16 + w, rest)
    | _, _, _, _ => none
  | _ => none

/-- The code point of a surrogate pair whose first half `hi` has been read, when
the input goes on with the escape of a second half. -/
def surrogatePair (hi : Nat) : List Byte → Option (Nat × List Byte)
  | b :: u :: rest =>
    if b = 0x5C ∧ u = 0x75 then
      match getu4 rest with
      | some (lo, rest1) =>
        if hi < 0xDC00 ∧ 0xDC00 ≤ lo ∧ lo < 0xE000 then
          some (0x10000 + (hi - 0xD800) * 1024 + (lo - 0xDC00), rest1)
        else none
      | none => none
    else none
  | _ => none

/-- The character for a one-letter escape `\" \\ \/ \b \f \n \r \t`. -/
def simpleEscape (e : Byte) : Option Byte :=
  if e = 0x22 ∨ e = 0x5C ∨ e = 0x2F then some e
  else if e = 0x62 then some 0x08
  else if e = 0x66 then some 0x0C
  else if e = 0x6E then some 0x0A
  else if e = 0x72 then some 0x0D
  else if e = 0x74 then some 0x09
  else none

/-- The bytes written for a rune: `utf8.EncodeRune`, U+FFFD for an invalid byte. -/
def Rune.bytes : Rune → List Byte
  | .valid c => utf8EncodeChar c
  | .invalid => [0xEF, 0xBF, 0xBD]

/-- Puts `pre` before the string of a result. -/
def prepend (pre : List Byte) : Option (List Byte × List Byte) → Option (List Byte × List Byte)
  | none => none
  | some (s, rest) => some (pre ++ s, rest)

/-- The rest of a JSON string literal after its opening quote, in at most `n`
steps: the unquoted string (escapes replaced, invalid UTF-8 and lone surrogates
replaced by U+FFFD) and the input after the closing quote.  `none` for an
unescaped control character, a wrong escape or a missing closing quote. -/
def unquoteAux : Nat → List Byte → Option (List Byte × List Byte)
  | 0, _ => none
  | _ + 1, [] => none
  | n + 1, b :: rest =>
    if b = 0x22 then some ([], rest)
    else if b = 0x5C then
      match rest with
      | [] => none
      | e :: rest1 =>
        if e = 0x75 then
          match getu4 rest1 with
          | none => none
          | some (r, rest2) =>
            if 0xD800 ≤ r ∧ r < 0xE000 then
              match surrogatePair r rest2 with
              | some (dec, rest3) => prepend (utf8EncodeChar (Char.ofNat dec)) (unquoteAux n rest3)
              | none => prepend [0xEF, 0xBF, 0xBD] (unquoteAux n rest2)
            else prepend (utf8EncodeChar (Char.ofNat r)) (unquoteAux n rest2)
        else
          match simpleEscape e with
          | some x => prepend [x] (unquoteAux n rest1)
          | none => none
    else if b.val < 0x20 then none
    else if b.val < 0x80 then prepend [b] (unquoteAux n rest)
    else
      match decodeRune (b :: rest) with
      | some (r, rest1) => prepend r.bytes (unquoteAux n rest1)
      | none => none

/-- A JSON string literal after its opening quote. -/
def unquote (s : List Byte) : Option (List Byte × List Byte) := unquoteAux (s.length + 1) s

/-- A decimal digit. -/
def isDigit (b : Byte) : Bool := 0x30 ≤ b.val && b.val ≤ 0x39

/-- The input after its leading digits. -/
def skipDigits : List Byte → List Byte
  | [] => []
  | b :: rest => if isDigit b then skipDigits rest else b :: rest

/-- The input after at least one digit. -/
def digits1 : List Byte → Option (List Byte)
  | [] => none
  | b :: rest => if isDigit b then some (skipDigits rest) else none

/-- The input after the optional exponent of a number. -/
def skipExponent : List Byte → Option (List Byte)
  | [] => some []
  | b :: rest =>
    if b = 0x65 ∨ b = 0x45 then
      match rest with
      | [] => none
      | c :: rest1 => if c = 0x2B ∨ c = 0x2D then digits1 rest1 else digits1 (c :: rest1)
    else some (b :: rest)

/-- The input after the optional fraction and exponent of a number. -/
def skipFraction : List Byte → Option (List Byte)
  | [] => some []
  | b :: rest =>
    if b = 0x2E then
      match digits1 rest with
      | some rest1 => skipExponent rest1
      | none => none
    else skipExponent (b :: rest)

/-- The input after the integer part, the fraction and the exponent of a number
(the sign has been read). -/
def skipUnsigned : List Byte → Option (List Byte)
  | [] => none
  | b :: rest =>
    if b = 0x30 then skipFraction rest
    else if isDigit b then skipFraction (skipDigits rest)
    else none

/-- The input after a JSON number. -/
def skipNumber : List Byte → Option (List Byte)
  | [] => none
  | b :: rest => if b = 0x2D then skipUnsigned rest else skipUnsigned (b :: rest)

/-- The input after the word `w`, when it begins with it. -/
def skipWord (w s : List Byte) : Option (List Byte) :=
  if w.isPrefixOf s then some (s.drop w.length) else none

/-- The nesting depth allowed by the scanner (`maxNestingDepth`). -/
def maxNestingDepth : Nat := 10000

mutual

/-- A JSON value at the beginning of the input, after optional white space, with
`depth` arrays and objects open around it: the value and the input after it.
The first argument bounds the number of nested calls. -/
def parseValue : Nat → Nat → List Byte → Option (JValue × List Byte)
  | 0, _, _ => none
  | fuel + 1, depth, s =>
    match skipSpace s with
    | [] => none
    | b :: rest =>
      if b = 0x7B then
        if depth < maxNestingDepth then
          match skipSpace rest with
          | [] => none
          | c :: rest1 =>
            if c = 0x7D then some (.object [], rest1)
            else
              match parseMembers fuel (depth + 1) (c :: rest1) with
              | some (ms, rest2) => some (.object ms, rest2)
              | none => none
        else none
      else if b = 0x5B then
        if depth < maxNestingDepth then
          match skipSpace rest with
          | [] => none
          | c :: rest1 =>
            if c = 0x5D then some (.array [], rest1)
            else
              match parseElems fuel (depth + 1) (c :: rest1) with
              | some (vs, rest2) => some (.array vs, rest2)
              | none => none
        else none
      else if b = 0x22 then
        match unquote rest with
        | some (str, rest1) => some (.string str, rest1)
        | none => none
      else if b = 0x74 then
        match skipWord (ascii "true") (b :: rest) with
        | some rest1 => some (.bool true, rest1)
        | none => none
      else if b = 0x66 then
        match skipWord (ascii "false") (b :: rest) with
        | some rest1 => some (.bool false, rest1)
        | none => none
      else if b = 0x6E then
        match skipWord (ascii "null") (b :: rest) with
        | some rest1 => some (.null, rest1)
        | none => none
      else
        match skipNumber (b :: rest) with
        | some rest1 => some (.number, rest1)
        | none => none

/-- The elements of an array from the first one up to the closing bracket. -/
def parseElems : Nat → Nat → List Byte → Option (List JValue × List Byte)
  | 0, _, _ => none
  | fuel + 1, depth, s =>
    match parseValue fuel depth s with
    | none => none
    | some (v, rest) =>
      match skipSpace rest with
      | [] => none
      | b :: rest1 =>
        if b = 0x2C then
          match parseElems fuel depth rest1 with
          | some (vs, rest2) => some (v :: vs, rest2)
          | none => none
        else if b = 0x5D then some ([v], rest1)
        else none

/-- The members of an object from the first key (after optional white space) up
to the closing brace. -/
def parseMembers : Nat → Nat → List Byte → Option (List (List Byte × JValue) × List Byte)
  | 0, _, _ => none
  | fuel + 1, depth, s =>
    match skipSpace s with
    | [] => none
    | q :: rest =>
      if q = 0x22 then
        match unquote rest with
        | none => none
        | some (key, rest1) =>
          match skipSpace rest1 with
          | [] => none
          | c :: rest2 =>
            if c = 0x3A then
              match parseValue fuel depth rest2 with
              | none => none
              | some (v, rest3) =>
                match skipSpace rest3 with
                | [] => none
                | b :: rest4 =>
                  if b = 0x2C then
                    match parseMembers fuel depth rest4 with
                    | some (ms, rest5) => some ((key, v) :: ms, rest5)
                    | none => none
                  else if b = 0x7D then some ([(key, v)], rest4)
                  else none
            else none
      else none

end

/-- The JSON value that the whole input consists of (`checkValid` and the
decoding scan); `none` is a `SyntaxError`. -/
def parseJSON (data : List Byte) : Option JValue :=
  match parseValue (2 * data.length + 1) 0 data with
  | some (v, rest) => if skipSpace rest = [] then some v else none
  | none => none

end Signal

namespace Signal

/-! ### Decoding into the description -/

/-- The image of a rune under the case folding of field names (`foldName`) when
that image is an ASCII byte: a lower-case ASCII letter folds to its capital, and
among the other runes only U+017F (long s) and U+212A (Kelvin sign) fold to
ASCII, to `S` and `K`. -/
def foldAscii : Rune → Option Byte
  | .invalid => none
  | .valid c =>
    if c.toNat < 0x80 then
      (if 0x61 ≤ c.toNat ∧ c.toNat ≤ 0x7A then some (Byte.ofNat (c.toNat - 32))
       else some (Byte.ofNat c.toNat))
    else if c.toNat = 0x17F then some 0x53
    else if c.toNat = 0x212A then some 0x4B
    else none

/-- The key of an object member selects the field with the folded name `name`
(an exact match is a match under folding). -/
def keyIs (key name : List Byte) : Bool := (runes key).map foldAscii = name.map some

/-- The image of a rune under `unicode.ToLower` when that image is an ASCII
byte: a capital ASCII letter gives its lower case, and among the other runes
only U+0130 and U+212A have an ASCII lower case, `i` and `k`. -/
def lowerAscii : Rune → Option Byte
  | .invalid => none
  | .valid c =>
    if c.toNat < 0x80 then
      (if 0x41 ≤ c.toNat ∧ c.toNat ≤ 0x5A then some (Byte.ofNat (c.toNat + 32))
       else some (Byte.ofNat c.toNat))
    else if c.toNat = 0x130 then some 0x69
    else if c.toNat = 0x212A then some 0x6B
    else none

/-- The string `strings.ToLower(s)` is the ASCII string `name`. -/
def lowerIs (s name : List Byte) : Bool := (runes s).map lowerAscii = name.map some

/-- `SDPType.UnmarshalJSON`: the value is unmarshalled into a string (`null`
leaves it empty, any other value that is not a string is an error) and the
lower case of the string is looked up; `none` is an error. -/
def unmarshalSDPType : JValue → Option SDPType
  | .string s =>
    if lowerIs s (ascii "offer") then some .offer
    else if lowerIs s (ascii "pranswer") then some .pranswer
    else if lowerIs s (ascii "answer") then some .answer
    else if lowerIs s (ascii "rollback") then some .rollback
    else none
  | _ => none

/-- One member of the object is stored into the description: the key `type` goes
through `SDPType.UnmarshalJSON`, the key `sdp` takes a string (`null` leaves the
field as it is), another key is skipped; `none` is an error. -/
def setField (obj : SessionDescription) (m : List Byte × JValue) : Option SessionDescription :=
  if keyIs m.1 (ascii "TYPE") then
    match unmarshalSDPType m.2 with
    | some t => some { obj with type := t }
    | none => none
  else if keyIs m.1 (ascii "SDP") then
    match m.2 with
    | .string s => some { obj with sdp := s }
    | .null => some obj
    | _ => none
  else some obj

/-- The members of the object are stored in order. -/
def fill (obj : SessionDescription) : List (List Byte × JValue) → Option SessionDescription
  | [] => some obj
  | m :: ms =>
    match setField obj m with
    | some o => fill o ms
    | none => none

/-- `json.Unmarshal(data, obj)` for `obj *webrtc.SessionDescription` pointing to
the value `obj`: the description after the call, or `none` for an error.  The
literal `null` leaves the description as it is; a value that is neither `null`
nor an object is an error. -/
def unmarshal (data : List Byte) (obj : SessionDescription) : Option SessionDescription :=
  match parseJSON data with
  | none => none
  | some .null => some obj
  | some (.object ms) => fill obj ms
  | some _ => none

/-! ### `encode` and `decode` -/

/-- The function `encode` (`twitch/main.go` 275-282, `play-from-disk-h264/main.go`
280-287): JSON, then base64.  The argument is a pointer, `none` when nil. -/
def encode (obj : Option SessionDescription) : Except Panic GoString :=
  match marshal obj with
  | none => .error .jsonMarshal
  | some b => .ok (base64Encode b)

/-- The function `decode` (`twitch/main.go` 285-294, `play-from-disk-h264/main.go`
290-299) called with the string `input` and a pointer to the description `obj`:
the description after the call, or the panic. -/
def decode (input : GoString) (obj : SessionDescription) : Except Panic SessionDescription :=
  match base64Decode input with
  | none => .error .base64Corrupt
  | some b =>
    match unmarshal b obj with
    | none => .error .jsonUnmarshal
    | some o => .ok o

end Signal

/-! # Theorems -/

/-- Disjunction with a left shift past the bits of the left operand is addition. -/
theorem or_shiftLeft_of_lt (x b i : Nat) (hx : x < 2 ^ i) :
    x ||| (b <<< i) = x + 2 ^ i * b := by
  rw [Nat.shiftLeft_eq, Nat.or_comm, Nat.mul_comm b, ← Nat.mul_add_lt_is_or hx b, Nat.add_comm]

/-- The four-byte little-endian word assembled in `pushVP8`, as arithmetic. -/
theorem raw_eq_sum (a b c d : Nat) (ha : a < 256) (hb : b < 256) (hc : c < 256)
    (hd : d < 256) :
    (a ||| ((b <<< 8) % 2 ^ 64) ||| ((c <<< 16) % 2 ^ 64) ||| ((d <<< 24) % 2 ^ 64))
      = a + 256 * b + 65536 * c + 16777216 * d := by
  have h1 : (b <<< 8) % 2 ^ 64 = b <<< 8 := by rw [Nat.shiftLeft_eq]; omega
  have h2 : (c <<< 16) % 2 ^ 64 = c <<< 16 := by rw [Nat.shiftLeft_eq]; omega
  have h3 : (d <<< 24) % 2 ^ 64 = d <<< 24 := by rw [Nat.shiftLeft_eq]; omega
  rw [h1, h2, h3, or_shiftLeft_of_lt a b 8 (by omega), or_shiftLeft_of_lt _ c 16 (by omega),
    or_shiftLeft_of_lt _ d 24 (by omega)]
  norm_num

/-- Masking with `0x3FFF` keeps the low 14 bits. -/
theorem and_3FFF (x : Nat) : x &&& 0x3FFF = x % 16384 := by
  have := Nat.and_pow_two_sub_one_eq_mod x 14
  simpa using this

/-- Masking with `0x1` keeps the lowest bit. -/
theorem and_one_eq_mod (x : Nat) : x &&& 0x1 = x % 2 := by
  exact Nat.and_one_is_mod x

namespace Twitch

/-- Indexing succeeds below the length. -/
theorem index_of_lt (data : List Byte) (i : Nat) (h : i < data.length) :
    index data i = .ok data[i] := by
  simp [index, List.getElem?_eq_getElem h]

/-- C5: start-up panics exactly when `os.Args` does not have length 2; with two
arguments `streamKey` is the second one unchanged, and the last argument of the
ffmpeg command is `rtmp://live.twitch.tv/app/` followed by the stream key. -/
theorem parseArgs_spec (args : List GoString) :
    ((∃ e, parseArgs args = .error e) ↔ args.length ≠ 2) ∧
    (∀ name key, args = [name, key] →
      parseArgs args = .ok key ∧
      (ffmpegArgs key).getLast? = some (ascii "rtmp://live.twitch.tv/app/" ++ key)) := by
  constructor
  · constructor
    · rintro ⟨e, he⟩ hlen
      match args, hlen with
      | [a, b], _ => simp [parseArgs] at he
    · intro h
      exact ⟨.missingStreamKey, by simp [parseArgs, h]⟩
  · rintro name key rfl
    exact ⟨by simp [parseArgs], by simp [ffmpegArgs, ingestURL]⟩

/-- Witness of `parseArgs_spec`: the command line `twitch k`. -/
theorem parseArgs_spec_witness :
    parseArgs [ascii "twitch", ascii "k"] = .ok (ascii "k") ∧
    (ffmpegArgs (ascii "k")).getLast? = some (ascii "rtmp://live.twitch.tv/app/" ++ ascii "k") :=
  (parseArgs_spec [ascii "twitch", ascii "k"]).2 (ascii "twitch") (ascii "k") rfl

/-- The frame size of a sample of at least ten bytes, as arithmetic on bytes 6 to 9. -/
theorem frameSize_eq (data : List Byte) (h : 10 ≤ data.length) :
    frameSize data = .ok (((data[6]).val + 256 * (data[7]).val) % 16384,
                          ((data[8]).val + 256 * (data[9]).val) % 16384) := by
  have e6 := index_of_lt data 6 (by omega)
  have e7 := index_of_lt data 7 (by omega)
  have e8 := index_of_lt data 8 (by omega)
  have e9 := index_of_lt data 9 (by omega)
  have hraw : rawDimensions data = .ok ((data[6]).val + 256 * (data[7]).val
      + 65536 * (data[8]).val + 16777216 * (data[9]).val) := by
    simp only [rawDimensions, e6, e7, e8, e9]
    show Except.ok _ = Except.ok _
    rw [raw_eq_sum _ _ _ _ (data[6]).isLt (data[7]).isLt (data[8]).isLt (data[9]).isLt]
  simp only [frameSize, hraw]
  show Except.ok _ = Except.ok _
  have h6 := (data[6]).isLt
  have h7 := (data[7]).isLt
  have h8 := (data[8]).isLt
  have h9 := (data[9]).isLt
  rw [widthOf, heightOf, and_3FFF, and_3FFF, Nat.shiftRight_eq_div_pow]
  congr 2 <;> omega

theorem startCalls_concat (l₁ l₂ : List Event) :
    startCalls (l₁ ++ l₂) = startCalls l₁ ++ startCalls l₂ := by
  simp [startCalls, List.filterMap_append]

/-- The header fields of a sample of at least ten bytes: the keyframe flag is the
negated lowest bit of byte 0, the width is the low 14 bits of the little-endian
16-bit value in bytes 6 and 7, the height is the low 14 bits of the one in bytes
8 and 9. -/
theorem header_fields (data : List Byte) (h : 10 ≤ data.length) :
    videoKeyframe data = .ok (decide ((data[0]).val % 2 = 0)) ∧
    frameSize data = .ok (((data[6]).val + 256 * (data[7]).val) % 16384,
                          ((data[8]).val + 256 * (data[9]).val) % 16384) := by
  refine ⟨?_, frameSize_eq data h⟩
  simp only [videoKeyframe, index_of_lt data 0 (by omega)]
  show Except.ok _ = Except.ok _
  rw [and_one_eq_mod]
  rfl

/-- C6: what one iteration of the loop of `pushVP8` does with a popped sample of
at least ten bytes.  The sample is treated as a keyframe exactly when the lowest
bit of byte 0 is 0: that is the keyframe flag handed to `Write`, and exactly
then, when a writer is unset, `startFFmpeg` is called, with the width equal to
the low 14 bits of the little-endian 16-bit value in bytes 6 and 7 and the height
equal to the low 14 bits of the one in bytes 8 and 9.  Both are at most 16383,
and they depend on no other byte of the sample. -/
theorem vp8_header_spec (st : State) (p : Popped) (hlen : 10 ≤ p.sample.data.length)
    (hrun : st.panicked = none) :
    (stepVP8 st p).log = st.log ++
      (if (p.sample.data[0]).val % 2 = 0 then
        (if st.videoWriter = none ∨ st.audioWriter = none then
          Event.startFFmpeg
              (((p.sample.data[6]).val + 256 * (p.sample.data[7]).val) % 16384)
              (((p.sample.data[8]).val + 256 * (p.sample.data[9]).val) % 16384)
            :: (if p.ffmpegFails then []
                else [Event.videoWrite true
                  (goDiv (wrapInt64 (st.videoTimestamp + p.sample.duration)) millisecond)
                  p.sample])
        else [Event.videoWrite true
          (goDiv (wrapInt64 (st.videoTimestamp + p.sample.duration)) millisecond) p.sample])
      else
        (if st.videoWriter = none then []
        else [Event.videoWrite false
          (goDiv (wrapInt64 (st.videoTimestamp + p.sample.duration)) millisecond) p.sample])) ∧
    pushVP8 st [p] = stepVP8 st p ∧
    (∀ w ht, Event.startFFmpeg w ht ∈ (stepVP8 st p).log →
      Event.startFFmpeg w ht ∈ st.log ∨ (w ≤ 16383 ∧ ht ≤ 16383)) ∧
    (∀ q : Popped, 10 ≤ q.sample.data.length →
      q.sample.data[0]? = p.sample.data[0]? → q.sample.data[6]? = p.sample.data[6]? →
      q.sample.data[7]? = p.sample.data[7]? → q.sample.data[8]? = p.sample.data[8]? →
      q.sample.data[9]? = p.sample.data[9]? →
      startCalls (stepVP8 st q).log = startCalls (stepVP8 st p).log) := by
  have hstep : ∀ q : Popped, ∀ hq : 10 ≤ q.sample.data.length,
      (stepVP8 st q).log = st.log ++
      (if (q.sample.data[0]).val % 2 = 0 then
        (if st.videoWriter = none ∨ st.audioWriter = none then
          Event.startFFmpeg
              (((q.sample.data[6]).val + 256 * (q.sample.data[7]).val) % 16384)
              (((q.sample.data[8]).val + 256 * (q.sample.data[9]).val) % 16384)
            :: (if q.ffmpegFails then []
                else [Event.videoWrite true
                  (goDiv (wrapInt64 (st.videoTimestamp + q.sample.duration)) millisecond)
                  q.sample])
        else [Event.videoWrite true
          (goDiv (wrapInt64 (st.videoTimestamp + q.sample.duration)) millisecond) q.sample])
      else
        (if st.videoWriter = none then []
        else [Event.videoWrite false
          (goDiv (wrapInt64 (st.videoTimestamp + q.sample.duration)) millisecond)
          q.sample])) := by
    intro q hq
    obtain ⟨hk, hf⟩ := header_fields q.sample.data hq
    unfold stepVP8
    rw [hk, hf]
    simp only [hrun, Option.isSome_none, Bool.false_eq_true, if_false]
    by_cases h0 : (q.sample.data[0]).val % 2 = 0
    · simp only [h0, decide_True, if_true]
      cases hv : st.videoWriter with
      | none =>
        cases hff : q.ffmpegFails <;> cases hwf : q.writeFails <;>
          simp [writeVP8, startFFmpeg, hrun, hv, hff, hwf]
      | some v =>
        cases ha : st.audioWriter with
        | none =>
          cases hff : q.ffmpegFails <;> cases hwf : q.writeFails <;>
            simp [writeVP8, startFFmpeg, hrun, hv, ha, hff, hwf]
        | some a =>
          cases hwf : q.writeFails <;> simp [writeVP8, hrun, hv, ha, hwf]
    · simp only [h0, decide_False, if_false]
      cases hv : st.videoWriter with
      | none => simp [writeVP8, hrun, hv]
      | some v => cases hwf : q.writeFails <;> simp [writeVP8, hrun, hv, hwf]
  refine ⟨hstep p hlen, rfl, ?_, ?_⟩
  · intro w ht hmem
    rw [hstep p hlen] at hmem
    rcases List.mem_append.1 hmem with h | h
    · exact Or.inl h
    · right
      split_ifs at h <;> simp at h
      all_goals
        obtain ⟨rfl, rfl⟩ := h
        exact ⟨by omega, by omega⟩
  · intro q hq h0 h6 h7 h8 h9
    rw [hstep p hlen, hstep q hq]
    rw [List.getElem?_eq_getElem (by omega), List.getElem?_eq_getElem (by omega)]
      at h0 h6 h7 h8 h9
    simp only [Option.some.injEq] at h0 h6 h7 h8 h9
    rw [h0, h6, h7, h8, h9]
    simp only [startCalls_concat]
    congr 1
    split_ifs <;> simp [startCalls]

/-- Witness of `vp8_header_spec`: at program start a keyframe whose header
announces 640 x 480 starts the transcoder with that size and is then written as
a keyframe. -/
theorem vp8_header_spec_witness :
    (stepVP8 State.init
      ⟨⟨[0x10, 0x02, 0x00, 0x9d, 0x01, 0x2a, 0x80, 0x02, 0xe0, 0x01], 33000000⟩,
        false, false⟩).log
      = [Event.startFFmpeg 640 480,
         Event.videoWrite true 33
          ⟨[0x10, 0x02, 0x00, 0x9d, 0x01, 0x2a, 0x80, 0x02, 0xe0, 0x01], 33000000⟩] := by
  have h := (vp8_header_spec State.init
    ⟨⟨[0x10, 0x02, 0x00, 0x9d, 0x01, 0x2a, 0x80, 0x02, 0xe0, 0x01], 33000000⟩, false, false⟩
    (by decide) rfl).1
  rw [h]
  decide

end Twitch

namespace Twitch

/-! ## The transcoder is started once (C7) -/

theorem startCalls_append (l₁ l₂ : List Event) :
    startCalls (l₁ ++ l₂) = startCalls l₁ ++ startCalls l₂ := by
  simp [startCalls, List.filterMap_append]

theorem stepOpus_startCalls (st : State) (p : Popped) :
    startCalls (stepOpus st p).log = startCalls st.log ∧
    (stepOpus st p).audioWriter = st.audioWriter ∧
    (stepOpus st p).videoWriter = st.videoWriter ∧
    (st.panicked.isSome = true → stepOpus st p = st) ∧
    ((stepOpus st p).panicked = none → st.panicked = none) := by
  unfold stepOpus
  by_cases hp : st.panicked.isSome = true
  · simp [hp]
  · by_cases ha : st.audioWriter.isSome = true
    · by_cases hw : p.writeFails = true <;>
        simp [hp, ha, hw, startCalls_append, startCalls]
    · simp [hp, ha]

theorem writeVP8_startCalls (st : State) (k : Bool) (p : Popped) :
    startCalls (writeVP8 st k p).log = startCalls st.log ∧
    (writeVP8 st k p).audioWriter = st.audioWriter ∧
    (writeVP8 st k p).videoWriter = st.videoWriter ∧
    ((writeVP8 st k p).panicked = none → st.panicked = none) := by
  unfold writeVP8
  by_cases hp : st.panicked.isSome = true
  · simp [hp]
  · by_cases ha : st.videoWriter.isSome = true
    · by_cases hw : p.writeFails = true <;>
        simp [hp, ha, hw, startCalls_append, startCalls]
    · simp [hp, ha]

theorem stepOpus_inv (st : State) (p : Popped) (h : WriterInv st) :
    WriterInv (stepOpus st p) := by
  obtain ⟨h1, h2, h3, h4⟩ := h
  obtain ⟨e1, e2, e3, _, e5⟩ := stepOpus_startCalls st p
  refine ⟨?_, ?_, ?_, ?_⟩
  · rw [e2, e3]; exact h1
  · rw [e1, e2]; exact h2
  · rw [e1, e2]; intro ha hp; exact h3 ha (e5 hp)
  · rw [e1]; exact h4

theorem writeVP8_inv (st : State) (k : Bool) (p : Popped) (h : WriterInv st) :
    WriterInv (writeVP8 st k p) := by
  obtain ⟨h1, h2, h3, h4⟩ := h
  obtain ⟨e1, e2, e3, e5⟩ := writeVP8_startCalls st k p
  refine ⟨?_, ?_, ?_, ?_⟩
  · rw [e2, e3]; exact h1
  · rw [e1, e2]; exact h2
  · rw [e1, e2]; intro ha hp; exact h3 ha (e5 hp)
  · rw [e1]; exact h4

theorem startFFmpeg_inv (st : State) (w ht : Nat) (fails : Bool) (h : WriterInv st)
    (hp : st.panicked = none) (hu : st.videoWriter.isNone || st.audioWriter.isNone) :
    WriterInv (startFFmpeg st w ht fails) := by
  obtain ⟨h1, h2, h3, h4⟩ := h
  have ha : st.audioWriter.isSome = false := by
    cases hA : st.audioWriter <;> cases hV : st.videoWriter <;> simp_all
  have h0 := h3 ha hp
  unfold startFFmpeg
  cases fails <;> simp [WriterInv, startCalls_append, h0, startCalls, ha, h1.symm.trans ha] <;>
    simpa [startCalls] using h0

theorem stepVP8_inv (st : State) (p : Popped) (h : WriterInv st) :
    WriterInv (stepVP8 st p) := by
  unfold stepVP8
  by_cases hp : st.panicked.isSome = true
  · simp [hp, h]
  · rw [if_neg hp]
    have hpn : st.panicked = none := by simpa using hp
    have hset : ∀ e : Panic, WriterInv { st with panicked := some e } := by
      intro e
      obtain ⟨h1, h2, h3, h4⟩ := h
      exact ⟨h1, h2, fun ha _ => h3 ha hpn, h4⟩
    split
    · exact hset _
    · exact writeVP8_inv _ _ _ h
    · split
      · exact hset _
      · split
        · rename_i hu
          exact writeVP8_inv _ _ _ (startFFmpeg_inv st _ _ _ h hpn hu)
        · exact writeVP8_inv _ _ _ h

theorem pushOpus_inv (popped : List Popped) (st : State) (h : WriterInv st) :
    WriterInv (pushOpus st popped) := by
  induction popped generalizing st with
  | nil => exact h
  | cons p ps ih => exact ih _ (stepOpus_inv st p h)

theorem pushVP8_inv (popped : List Popped) (st : State) (h : WriterInv st) :
    WriterInv (pushVP8 st popped) := by
  induction popped generalizing st with
  | nil => exact h
  | cons p ps ih => exact ih _ (stepVP8_inv st p h)

theorem call_inv (c : Call) (st : State) (h : WriterInv st) : WriterInv (call st c) := by
  cases c with
  | pushOpus popped => exact pushOpus_inv popped st h
  | pushVP8 popped => exact pushVP8_inv popped st h

theorem foldl_call_inv (calls : List Call) (st : State) (h : WriterInv st) :
    WriterInv (calls.foldl call st) := by
  induction calls generalizing st with
  | nil => exact h
  | cons c cs ih => exact ih _ (call_inv c st h)

theorem run_inv (calls : List Call) : WriterInv (run calls) :=
  foldl_call_inv calls State.init (by simp [WriterInv, State.init, startCalls])

/-- What one loop iteration of `pushVP8` does to the record of `startFFmpeg` calls. -/
theorem stepVP8_startCalls (st : State) (p : Popped) :
    startCalls (stepVP8 st p).log = startCalls st.log ∨
    (videoKeyframe p.sample.data = .ok true ∧
      (st.videoWriter = none ∨ st.audioWriter = none) ∧
      ∃ w ht, frameSize p.sample.data = .ok (w, ht) ∧
        startCalls (stepVP8 st p).log = startCalls st.log ++ [(w, ht)]) := by
  unfold stepVP8
  by_cases hp : st.panicked.isSome = true
  · simp [hp]
  · rw [if_neg hp]
    split
    · exact Or.inl rfl
    · exact Or.inl (writeVP8_startCalls _ _ _).1
    · rename_i hk
      split
      · exact Or.inl rfl
      · rename_i w ht hf
        split
        · rename_i hu
          refine Or.inr ⟨by assumption, ?_, w, ht, by assumption, ?_⟩
          · cases hV : st.videoWriter <;> cases hA : st.audioWriter <;> simp_all
          · rw [(writeVP8_startCalls _ _ _).1]
            unfold startFFmpeg
            cases p.ffmpegFails <;> simp [startCalls_append, startCalls]
        · exact Or.inl (writeVP8_startCalls _ _ _).1

/-- C7: `pushOpus` never calls `startFFmpeg`; one iteration of `pushVP8` calls it
only on a keyframe, only when a writer is unset, and with the size read from that
keyframe; a successful `startFFmpeg` sets both writers; in every run the writers
are both set or both unset and `startFFmpeg` has been called at most once. -/
theorem startFFmpeg_at_most_once (calls : List Call) (st : State) (p : Popped)
    (w ht : Nat) :
    startCalls (stepOpus st p).log = startCalls st.log ∧
    (startCalls (stepVP8 st p).log = startCalls st.log ∨
      (videoKeyframe p.sample.data = .ok true ∧
        (st.videoWriter = none ∨ st.audioWriter = none) ∧
        ∃ w ht, frameSize p.sample.data = .ok (w, ht) ∧
          startCalls (stepVP8 st p).log = startCalls st.log ++ [(w, ht)])) ∧
    ((startFFmpeg st w ht false).audioWriter.isSome = true ∧
      (startFFmpeg st w ht false).videoWriter.isSome = true) ∧
    (run calls).audioWriter.isSome = (run calls).videoWriter.isSome ∧
    (startCalls (run calls).log).length ≤ 1 := by
  refine ⟨(stepOpus_startCalls st p).1, stepVP8_startCalls st p, ?_, (run_inv calls).1,
    (run_inv calls).2.2.2⟩
  simp [startFFmpeg]

end Twitch

namespace Twitch

/-! ## Block timestamps (C9) -/

theorem audioWrites_append (l₁ l₂ : List Event) :
    audioWrites (l₁ ++ l₂) = audioWrites l₁ ++ audioWrites l₂ := by
  simp [audioWrites, List.filterMap_append]

theorem videoWrites_append (l₁ l₂ : List Event) :
    videoWrites (l₁ ++ l₂) = videoWrites l₁ ++ videoWrites l₂ := by
  simp [videoWrites, List.filterMap_append]

theorem total_append (acc : Int) (ds : List Int) (d : Int) :
    total acc (ds ++ [d]) = wrapInt64 (total acc ds + d) := by
  simp [total, List.foldl_append]

theorem runningSums_append (acc : Int) (ds : List Int) (d : Int) :
    runningSums acc (ds ++ [d]) = runningSums acc ds ++ [wrapInt64 (total acc ds + d)] := by
  induction ds generalizing acc with
  | nil => simp [runningSums, total]
  | cons x xs ih => simp [runningSums, total, ih]

theorem stamps_append (acc : Int) (ds : List Int) (d : Int) :
    stamps acc (ds ++ [d]) = stamps acc ds ++ [goDiv (wrapInt64 (total acc ds + d)) millisecond] := by
  simp [stamps, runningSums_append]

theorem StampInv.snoc (ts : Int) (writes : List (Int × Sample)) (smp : Sample)
    (h : StampInv ts writes) :
    StampInv (wrapInt64 (ts + smp.duration))
      (writes ++ [(goDiv (wrapInt64 (ts + smp.duration)) millisecond, smp)]) := by
  obtain ⟨h1, h2⟩ := h
  constructor
  · simp [total_append, ← h1]
  · simp [stamps_append, ← h1, h2]

/-- Both tracks satisfy the timestamp invariant. -/
theorem stepOpus_stamp (st : State) (p : Popped)
    (ha : StampInv st.audioTimestamp (audioWrites st.log))
    (hv : StampInv st.videoTimestamp (videoWrites st.log)) :
    StampInv (stepOpus st p).audioTimestamp (audioWrites (stepOpus st p).log) ∧
    StampInv (stepOpus st p).videoTimestamp (videoWrites (stepOpus st p).log) := by
  unfold stepOpus
  by_cases hp : st.panicked.isSome = true
  · simp [hp, ha, hv]
  · by_cases hw : st.audioWriter.isSome = true
    · have hs := StampInv.snoc _ _ p.sample ha
      by_cases hf : p.writeFails = true <;>
        simp [hp, hw, hf, audioWrites_append, videoWrites_append, audioWrites, videoWrites] <;>
        exact ⟨by simpa [audioWrites] using hs, by simpa [videoWrites] using hv⟩
    · simp [hp, hw, ha, hv]

theorem writeVP8_stamp (st : State) (k : Bool) (p : Popped)
    (ha : StampInv st.audioTimestamp (audioWrites st.log))
    (hv : StampInv st.videoTimestamp (videoWrites st.log)) :
    StampInv (writeVP8 st k p).audioTimestamp (audioWrites (writeVP8 st k p).log) ∧
    StampInv (writeVP8 st k p).videoTimestamp (videoWrites (writeVP8 st k p).log) := by
  unfold writeVP8
  by_cases hp : st.panicked.isSome = true
  · simp [hp, ha, hv]
  · by_cases hw : st.videoWriter.isSome = true
    · have hs := StampInv.snoc _ _ p.sample hv
      by_cases hf : p.writeFails = true <;>
        simp [hp, hw, hf, audioWrites_append, videoWrites_append, audioWrites, videoWrites] <;>
        exact ⟨by simpa [audioWrites] using ha, by simpa [videoWrites] using hs⟩
    · simp [hp, hw, ha, hv]

theorem startFFmpeg_stamp (st : State) (w ht : Nat) (fails : Bool)
    (ha : StampInv st.audioTimestamp (audioWrites st.log))
    (hv : StampInv st.videoTimestamp (videoWrites st.log)) :
    StampInv (startFFmpeg st w ht fails).audioTimestamp
      (audioWrites (startFFmpeg st w ht fails).log) ∧
    StampInv (startFFmpeg st w ht fails).videoTimestamp
      (videoWrites (startFFmpeg st w ht fails).log) := by
  unfold startFFmpeg
  cases fails <;>
    simp [audioWrites_append, videoWrites_append, audioWrites, videoWrites] <;>
    exact ⟨by simpa [audioWrites] using ha, by simpa [videoWrites] using hv⟩

/-- The timestamp invariant of both tracks. -/
theorem stepVP8_stamp (st : State) (p : Popped)
    (h : StampInv st.audioTimestamp (audioWrites st.log) ∧
      StampInv st.videoTimestamp (videoWrites st.log)) :
    StampInv (stepVP8 st p).audioTimestamp (audioWrites (stepVP8 st p).log) ∧
    StampInv (stepVP8 st p).videoTimestamp (videoWrites (stepVP8 st p).log) := by
  unfold stepVP8
  by_cases hp : st.panicked.isSome = true
  · simp [hp, h]
  · rw [if_neg hp]
    split
    · exact h
    · exact writeVP8_stamp _ _ _ h.1 h.2
    · split
      · exact h
      · split
        · rename_i w ht _ _
          have hs := startFFmpeg_stamp st w ht p.ffmpegFails h.1 h.2
          exact writeVP8_stamp _ _ _ hs.1 hs.2
        · exact writeVP8_stamp _ _ _ h.1 h.2

theorem foldl_call_stamp (calls : List Call) (st : State)
    (h : StampInv st.audioTimestamp (audioWrites st.log) ∧
      StampInv st.videoTimestamp (videoWrites st.log)) :
    StampInv (calls.foldl call st).audioTimestamp (audioWrites (calls.foldl call st).log) ∧
    StampInv (calls.foldl call st).videoTimestamp (videoWrites (calls.foldl call st).log) := by
  induction calls generalizing st with
  | nil => exact h
  | cons c cs ih =>
    apply ih
    cases c with
    | pushOpus popped =>
      show StampInv (pushOpus st popped).audioTimestamp _ ∧ _
      unfold pushOpus
      induction popped generalizing st with
      | nil => exact h
      | cons q qs ihq => exact ihq _ (stepOpus_stamp st q h.1 h.2)
    | pushVP8 popped =>
      show StampInv (pushVP8 st popped).audioTimestamp _ ∧ _
      unfold pushVP8
      induction popped generalizing st with
      | nil => exact h
      | cons q qs ihq => exact ihq _ (stepVP8_stamp st q h)

theorem run_stamp (calls : List Call) :
    StampInv (run calls).audioTimestamp (audioWrites (run calls).log) ∧
    StampInv (run calls).videoTimestamp (videoWrites (run calls).log) :=
  foldl_call_stamp calls State.init
    (by simp [StampInv, State.init, audioWrites, videoWrites, total, stamps, runningSums])

/-- Reduction to `int64` leaves a value of the range unchanged. -/
theorem wrapInt64_of_range (x : Int) (h0 : 0 ≤ x) (h1 : x < 2 ^ 63) : wrapInt64 x = x := by
  unfold wrapInt64
  omega

/-- Without overflow and with non-negative durations, the `int64` running sums
are the exact ones. -/
theorem runningSums_eq_prefixSums (ds : List Int) (acc : Int) (hacc : 0 ≤ acc)
    (hnn : ∀ d ∈ ds, 0 ≤ d) (hsum : acc + ds.sum < 2 ^ 63) :
    runningSums acc ds = prefixSums acc ds := by
  induction ds generalizing acc with
  | nil => rfl
  | cons d ds ih =>
    have hd : 0 ≤ d := hnn d (List.mem_cons_self _ _)
    have hrest : ∀ x ∈ ds, 0 ≤ x := fun x hx => hnn x (List.mem_cons_of_mem _ hx)
    have hs : 0 ≤ ds.sum := List.sum_nonneg hrest
    simp only [List.sum_cons] at hsum
    have hw : wrapInt64 (acc + d) = acc + d := wrapInt64_of_range _ (by omega) (by omega)
    simp only [runningSums, prefixSums, hw]
    rw [ih (acc + d) (by omega) hrest (by omega)]

/-- Exact running sums of non-negative durations are non-negative and
non-decreasing. -/
theorem prefixSums_sorted (ds : List Int) (acc : Int) (hnn : ∀ d ∈ ds, 0 ≤ d) :
    (∀ s ∈ prefixSums acc ds, acc ≤ s) ∧ List.Pairwise (· ≤ ·) (prefixSums acc ds) := by
  induction ds generalizing acc with
  | nil => simp [prefixSums]
  | cons d ds ih =>
    have hd : 0 ≤ d := hnn d (List.mem_cons_self _ _)
    have hrest : ∀ x ∈ ds, 0 ≤ x := fun x hx => hnn x (List.mem_cons_of_mem _ hx)
    obtain ⟨h1, h2⟩ := ih (acc + d) hrest
    constructor
    · intro s hs
      simp only [prefixSums, List.mem_cons] at hs
      rcases hs with rfl | hs
      · omega
      · have := h1 s hs; omega
    · simp only [prefixSums, List.pairwise_cons]
      exact ⟨h1, h2⟩

/-- The timestamps of a track without overflow and with non-negative durations. -/
theorem stamps_of_nonneg (ds : List Int) (hnn : ∀ d ∈ ds, 0 ≤ d) (hsum : ds.sum < 2 ^ 63) :
    stamps 0 ds = (prefixSums 0 ds).map (fun s => s / 1000000) ∧
    List.Pairwise (· ≤ ·) (stamps 0 ds) := by
  have hrun := runningSums_eq_prefixSums ds 0 (le_refl _) hnn (by simpa using hsum)
  obtain ⟨hge, hsorted⟩ := prefixSums_sorted ds 0 hnn
  have hmap : stamps 0 ds = (prefixSums 0 ds).map (fun s => s / 1000000) := by
    unfold stamps
    rw [hrun]
    apply List.map_congr_left
    intro s hs
    have h0 : 0 ≤ s := hge s hs
    show Int.tdiv s 1000000 = s / 1000000
    exact Int.tdiv_eq_ediv h0 (by decide)
  refine ⟨hmap, ?_⟩
  rw [hmap, List.pairwise_map]
  exact hsorted.imp (fun {a b} hab => Int.ediv_le_ediv (by decide) hab)

end Twitch

namespace Twitch

/-! ## Which samples are written, and with which timestamps (C9) -/

theorem videoKeyframe_cons (b : Byte) (t : List Byte) :
    videoKeyframe (b :: t) = .ok (b.val % 2 == 0) := by
  simp only [videoKeyframe, index, List.getElem?_cons_zero]
  show Except.ok _ = Except.ok _
  rw [and_one_eq_mod]

theorem foldl_map_opus (ps : List Popped) (st : State) :
    (ps.map (fun p => (false, p))).foldl stepTrack st = ps.foldl stepOpus st := by
  induction ps generalizing st with
  | nil => rfl
  | cons p ps ih =>
    simp only [List.map_cons, List.foldl_cons]
    exact ih _

theorem foldl_map_vp8 (ps : List Popped) (st : State) :
    (ps.map (fun p => (true, p))).foldl stepTrack st = ps.foldl stepVP8 st := by
  induction ps generalizing st with
  | nil => rfl
  | cons p ps ih =>
    simp only [List.map_cons, List.foldl_cons]
    exact ih _

/-- A run is the sequence of the loop iterations for its popped samples. -/
theorem foldl_call_popped (calls : List Call) (st : State) :
    calls.foldl call st = (popped calls).foldl stepTrack st := by
  induction calls generalizing st with
  | nil => rfl
  | cons c cs ih =>
    cases c with
    | pushOpus ps =>
      simp only [List.foldl_cons, popped, List.foldl_append, foldl_map_opus]
      exact ih _
    | pushVP8 ps =>
      simp only [List.foldl_cons, popped, List.foldl_append, foldl_map_vp8]
      exact ih _

/-- Once the writers are set, every sample is written to its track. -/
theorem stepTrack_started (st : State) (x : Bool × Popped) (hp : st.panicked = none)
    (ha : st.audioWriter.isSome = true) (hv : st.videoWriter.isSome = true)
    (hc : clean x = true) :
    (stepTrack st x).panicked = none ∧ (stepTrack st x).audioWriter.isSome = true ∧
    (stepTrack st x).videoWriter.isSome = true ∧
    (audioWrites (stepTrack st x).log).map Prod.snd
      = (audioWrites st.log).map Prod.snd ++ (if x.1 then [] else [x.2.sample]) ∧
    (videoWrites (stepTrack st x).log).map Prod.snd
      = (videoWrites st.log).map Prod.snd ++ (if x.1 then [x.2.sample] else []) := by
  obtain ⟨v, p⟩ := x
  cases v with
  | false =>
    have hw : p.writeFails = false := by
      simp only [clean, Bool.and_eq_true, Bool.not_eq_true'] at hc
      exact hc.1.2
    simp [stepTrack, stepOpus, hp, ha, hv, hw, audioWrites_append, videoWrites_append,
      audioWrites, videoWrites]
  | true =>
    simp only [clean, isKeyframe, Bool.and_eq_true, Bool.not_eq_true', Bool.true_and,
      Bool.not_true, Bool.false_or, decide_eq_true_eq, Bool.or_eq_true] at hc
    obtain ⟨⟨hf, hw⟩, hne, hkey⟩ := hc
    cases hd : p.sample.data with
    | nil => exact absurd hd hne
    | cons b t =>
      have hk := videoKeyframe_cons b t
      have hvn : st.videoWriter.isNone = false := by
        cases h : st.videoWriter with
        | none => simp [h] at hv
        | some _ => rfl
      have han : st.audioWriter.isNone = false := by
        cases h : st.audioWriter with
        | none => simp [h] at ha
        | some _ => rfl
      by_cases hb : b.val % 2 = 0
      · have hlen : 10 ≤ p.sample.data.length := by
          rcases hkey with h | h
          · simp [hd, hb] at h
          · exact h
        have hfs := frameSize_eq p.sample.data hlen
        have hk2 : videoKeyframe p.sample.data = .ok true := by
          rw [hd, hk]; simp [hb]
        simp [stepTrack, stepVP8, hp, hk2, hfs, hvn, han, writeVP8, hv, hw,
          audioWrites_append, videoWrites_append, audioWrites, videoWrites, ha]
      · have hk2 : videoKeyframe p.sample.data = .ok false := by
          rw [hd, hk]; simp [hb]
        simp [stepTrack, stepVP8, hp, hk2, writeVP8, hv, hw,
          audioWrites_append, videoWrites_append, audioWrites, videoWrites, ha]

/-- From a state with the writers set, the samples written are all the samples
popped. -/
theorem foldl_started (l : List (Bool × Popped)) (st : State) (hp : st.panicked = none)
    (ha : st.audioWriter.isSome = true) (hv : st.videoWriter.isSome = true)
    (hc : ∀ x ∈ l, clean x = true) :
    (audioWrites (l.foldl stepTrack st).log).map Prod.snd
      = (audioWrites st.log).map Prod.snd
        ++ (l.filter (fun x => !x.1)).map (fun x => x.2.sample) ∧
    (videoWrites (l.foldl stepTrack st).log).map Prod.snd
      = (videoWrites st.log).map Prod.snd
        ++ (l.filter (fun x => x.1)).map (fun x => x.2.sample) := by
  induction l generalizing st with
  | nil => simp
  | cons x l ih =>
    obtain ⟨h1, h2, h3, h4, h5⟩ :=
      stepTrack_started st x hp ha hv (hc x (List.mem_cons_self _ _))
    obtain ⟨i1, i2⟩ := ih (stepTrack st x) h1 h2 h3
      (fun y hy => hc y (List.mem_cons_of_mem _ hy))
    simp only [List.foldl_cons]
    rw [i1, i2, h4, h5]
    obtain ⟨v, p⟩ := x
    cases v <;> simp [List.filter_cons]

/-- A sample that is not a keyframe, popped while the writers are unset, leaves
the state as it is. -/
theorem stepTrack_idle (st : State) (x : Bool × Popped) (hp : st.panicked = none)
    (ha : st.audioWriter = none) (hv : st.videoWriter = none)
    (hk : isKeyframe x = false) (hc : clean x = true) : stepTrack st x = st := by
  obtain ⟨v, p⟩ := x
  cases v with
  | false => simp [stepTrack, stepOpus, hp, ha]
  | true =>
    simp only [clean, isKeyframe, Bool.and_eq_true, Bool.not_eq_true', Bool.true_and,
      Bool.not_true, Bool.false_or, decide_eq_true_eq, Bool.or_eq_true] at hc
    obtain ⟨_, hne, _⟩ := hc
    cases hd : p.sample.data with
    | nil => exact absurd hd hne
    | cons b t =>
      have hb : (b.val % 2 == 0) = false := by
        simpa [isKeyframe, hd] using hk
      have hk2 : videoKeyframe p.sample.data = .ok false := by
        rw [hd, videoKeyframe_cons, hb]
      simp [stepTrack, stepVP8, hp, hk2, writeVP8, hv]

/-- A keyframe popped while the writers are unset starts the transcoder with the
size of its header and is then written with its own duration added to the video
timestamp. -/
theorem stepVP8_start (st : State) (p : Popped) (hp : st.panicked = none)
    (hv : st.videoWriter = none) (hk : isKeyframe (true, p) = true)
    (hlen : 10 ≤ p.sample.data.length) (hf : p.ffmpegFails = false) :
    ∃ w ht, frameSize p.sample.data = .ok (w, ht) ∧
      (stepVP8 st p).log = st.log ++ [Event.startFFmpeg w ht,
        Event.videoWrite true
          (goDiv (wrapInt64 (st.videoTimestamp + p.sample.duration)) millisecond) p.sample] ∧
      (stepVP8 st p).videoTimestamp = wrapInt64 (st.videoTimestamp + p.sample.duration) ∧
      (stepVP8 st p).audioWriter.isSome = true ∧ (stepVP8 st p).videoWriter.isSome = true ∧
      ((stepVP8 st p).panicked = none ↔ p.writeFails = false) := by
  have hfs := frameSize_eq p.sample.data hlen
  refine ⟨_, _, hfs, ?_⟩
  have hex : ∃ b t, p.sample.data = b :: t := by
    cases h : p.sample.data with
    | nil => rw [h] at hlen; simp at hlen
    | cons b t => exact ⟨b, t, rfl⟩
  obtain ⟨b, t, hd⟩ := hex
  have hb : (b.val % 2 == 0) = true := by
    simpa [isKeyframe, hd] using hk
  have hk2 : videoKeyframe p.sample.data = .ok true := by
    rw [hd, videoKeyframe_cons, hb]
  cases hw : p.writeFails <;>
    simp [stepVP8, hp, hk2, hfs, hv, writeVP8, startFFmpeg, hf, hw]

theorem stepTrack_start (st : State) (x : Bool × Popped) (hp : st.panicked = none)
    (hv : st.videoWriter = none) (hk : isKeyframe x = true) (hc : clean x = true) :
    (stepTrack st x).panicked = none ∧ (stepTrack st x).audioWriter.isSome = true ∧
    (stepTrack st x).videoWriter.isSome = true ∧
    (audioWrites (stepTrack st x).log).map Prod.snd = (audioWrites st.log).map Prod.snd ∧
    (videoWrites (stepTrack st x).log).map Prod.snd
      = (videoWrites st.log).map Prod.snd ++ [x.2.sample] := by
  obtain ⟨v, p⟩ := x
  cases v with
  | false => simp [isKeyframe] at hk
  | true =>
    have hc2 := hc
    simp only [clean, hk, Bool.and_eq_true, Bool.not_eq_true', Bool.true_and,
      Bool.not_true, Bool.false_or, decide_eq_true_eq, Bool.or_eq_true] at hc2
    obtain ⟨⟨hf, hw⟩, _, hlen⟩ := hc2
    obtain ⟨w, ht, _, hlog, _, h2, h3, h4⟩ := stepVP8_start st p hp hv hk hlen hf
    refine ⟨h4.2 hw, h2, h3, ?_, ?_⟩
    · show (audioWrites (stepVP8 st p).log).map Prod.snd = _
      rw [hlog]
      simp [audioWrites_append, audioWrites]
    · show (videoWrites (stepVP8 st p).log).map Prod.snd = _
      rw [hlog]
      simp [videoWrites_append, videoWrites]

/-- From a state with the writers unset, the samples written are those from the
first video keyframe on. -/
theorem foldl_idle (l : List (Bool × Popped)) (st : State) (hp : st.panicked = none)
    (ha : st.audioWriter = none) (hv : st.videoWriter = none)
    (hc : ∀ x ∈ l, clean x = true) :
    (audioWrites (l.foldl stepTrack st).log).map Prod.snd
      = (audioWrites st.log).map Prod.snd
        ++ ((fromFirstKeyframe l).filter (fun x => !x.1)).map (fun x => x.2.sample) ∧
    (videoWrites (l.foldl stepTrack st).log).map Prod.snd
      = (videoWrites st.log).map Prod.snd
        ++ ((fromFirstKeyframe l).filter (fun x => x.1)).map (fun x => x.2.sample) := by
  induction l with
  | nil => simp [fromFirstKeyframe]
  | cons x l ih =>
    have hcx := hc x (List.mem_cons_self _ _)
    have hcl : ∀ y ∈ l, clean y = true := fun y hy => hc y (List.mem_cons_of_mem _ hy)
    by_cases hk : isKeyframe x = true
    · obtain ⟨h1, h2, h3, h4, h5⟩ := stepTrack_start st x hp hv hk hcx
      obtain ⟨i1, i2⟩ := foldl_started l (stepTrack st x) h1 h2 h3 hcl
      have hx1 : x.1 = true := by
        simp only [isKeyframe, Bool.and_eq_true] at hk
        exact hk.1
      have hdrop : fromFirstKeyframe (x :: l) = x :: l := by
        simp [fromFirstKeyframe, List.dropWhile_cons, hk]
      simp only [List.foldl_cons]
      rw [i1, i2, h4, h5, hdrop]
      simp [List.filter_cons, hx1]
    · have hk2 : isKeyframe x = false := by
        cases h : isKeyframe x with
        | true => exact absurd h hk
        | false => rfl
      have hdrop : fromFirstKeyframe (x :: l) = fromFirstKeyframe l := by
        simp [fromFirstKeyframe, List.dropWhile_cons, hk2]
      simp only [List.foldl_cons]
      rw [stepTrack_idle st x hp ha hv hk2 hcx, hdrop]
      exact ih hcl

/-- In a run in which nothing fails, the samples written to the audio track are
the audio samples popped after the first video keyframe, and those written to
the video track are that keyframe and the video samples after it. -/
theorem run_written (calls : List Call) (hc : ∀ x ∈ popped calls, clean x = true) :
    (audioWrites (run calls).log).map Prod.snd = writtenAudio calls ∧
    (videoWrites (run calls).log).map Prod.snd = writtenVideo calls := by
  have h := foldl_idle (popped calls) State.init rfl rfl rfl hc
  unfold run
  rw [foldl_call_popped]
  simpa [State.init, audioWrites, videoWrites, writtenAudio, writtenVideo] using h

/-- The timestamps of a track when the samples written are known. -/
theorem stamps_of_written (writes : List (Int × Sample)) (samples : List Sample)
    (hst : writes.map Prod.fst = stamps 0 (writes.map (fun x => x.2.duration)))
    (hw : writes.map Prod.snd = samples)
    (hnn : ∀ s ∈ samples, 0 ≤ s.duration)
    (hsum : (samples.map (fun s => s.duration)).sum < 2 ^ 63) :
    writes.map Prod.fst = floorStamps samples ∧
    List.Pairwise (· ≤ ·) (writes.map Prod.fst) := by
  have hd : writes.map (fun x => x.2.duration) = samples.map (fun s => s.duration) := by
    rw [← hw, List.map_map]
    rfl
  rw [hst, hd]
  refine stamps_of_nonneg _ (fun d hd => ?_) hsum
  obtain ⟨x, hx, rfl⟩ := List.mem_map.1 hd
  exact hnn x hx

/-- C9 (amended): in a run in which nothing fails, the samples written to the
audio track are exactly the audio samples popped after the first video keyframe
and those written to the video track are that keyframe and the video samples
popped after it; on each track the timestamp passed to the k-th `Write` is the
floor of `S_k` over one millisecond, where `S_k` is the sum of the durations of
the samples written so far including the k-th (the first block carries its own
duration), for non-negative durations whose sum stays below `2 ^ 63`, and these
timestamps are non-decreasing; for all durations the timestamps are the `int64`
running sums divided by a millisecond.  A sample popped while the writer of its
track is unset is dropped and changes nothing, except a video keyframe: popped
while the video writer is unset, it starts the transcoder with the size of its
header and is then written, its duration being added to the video timestamp. -/
theorem write_timestamps (calls : List Call) (st : State) (p : Popped) :
    ((∀ x ∈ popped calls, clean x = true) →
      (audioWrites (run calls).log).map Prod.snd = writtenAudio calls ∧
      (videoWrites (run calls).log).map Prod.snd = writtenVideo calls ∧
      ((∀ s ∈ writtenAudio calls, 0 ≤ s.duration) →
        ((writtenAudio calls).map (fun s => s.duration)).sum < 2 ^ 63 →
        (audioWrites (run calls).log).map Prod.fst = floorStamps (writtenAudio calls) ∧
        List.Pairwise (· ≤ ·) ((audioWrites (run calls).log).map Prod.fst)) ∧
      ((∀ s ∈ writtenVideo calls, 0 ≤ s.duration) →
        ((writtenVideo calls).map (fun s => s.duration)).sum < 2 ^ 63 →
        (videoWrites (run calls).log).map Prod.fst = floorStamps (writtenVideo calls) ∧
        List.Pairwise (· ≤ ·) ((videoWrites (run calls).log).map Prod.fst))) ∧
    (audioWrites (run calls).log).map Prod.fst
      = stamps 0 ((audioWrites (run calls).log).map (fun x => x.2.duration)) ∧
    (videoWrites (run calls).log).map Prod.fst
      = stamps 0 ((videoWrites (run calls).log).map (fun x => x.2.duration)) ∧
    (st.audioWriter = none → stepOpus st p = st) ∧
    (st.panicked = none → st.videoWriter = none → isKeyframe (true, p) = false →
      p.sample.data ≠ [] → stepVP8 st p = st) ∧
    (st.panicked = none → st.videoWriter = none → isKeyframe (true, p) = true →
      10 ≤ p.sample.data.length → p.ffmpegFails = false →
      ∃ w ht, frameSize p.sample.data = .ok (w, ht) ∧
        (stepVP8 st p).log = st.log ++ [Event.startFFmpeg w ht,
          Event.videoWrite true
            (goDiv (wrapInt64 (st.videoTimestamp + p.sample.duration)) millisecond)
            p.sample] ∧
        (stepVP8 st p).videoTimestamp
          = wrapInt64 (st.videoTimestamp + p.sample.duration)) := by
  obtain ⟨ha, hv⟩ := run_stamp calls
  refine ⟨?_, ha.2, hv.2, ?_, ?_, ?_⟩
  · intro hc
    obtain ⟨wa, wv⟩ := run_written calls hc
    exact ⟨wa, wv, stamps_of_written _ _ ha.2 wa, stamps_of_written _ _ hv.2 wv⟩
  · intro h
    unfold stepOpus
    simp [h]
  · intro hp hvw hk hne
    cases hd : p.sample.data with
    | nil => exact absurd hd hne
    | cons b t =>
      have hb : (b.val % 2 == 0) = false := by
        simpa [isKeyframe, hd] using hk
      have hk2 : videoKeyframe p.sample.data = .ok false := by
        rw [hd, videoKeyframe_cons, hb]
      simp [stepVP8, hp, hk2, writeVP8, hvw]
  · intro hp hvw hk hlen hf
    obtain ⟨w, ht, h1, h2, h3, _⟩ := stepVP8_start st p hp hvw hk hlen hf
    exact ⟨w, ht, h1, h2, h3⟩

/-- Witness of `write_timestamps`: an Opus sample and an interframe arrive
before the first keyframe and are dropped; the keyframe of 33 ms is written and
stamped 33, the interframe after it 66, and the two Opus samples of 20 ms after
it are stamped 20 and 40. -/
theorem write_timestamps_witness :
    (∀ x ∈ popped mixedRun, clean x = true) ∧
    (audioWrites (run mixedRun).log).map Prod.snd = writtenAudio mixedRun ∧
    (videoWrites (run mixedRun).log).map Prod.snd = writtenVideo mixedRun ∧
    (audioWrites (run mixedRun).log).map Prod.fst = floorStamps (writtenAudio mixedRun) ∧
    (videoWrites (run mixedRun).log).map Prod.fst = floorStamps (writtenVideo mixedRun) ∧
    floorStamps (writtenAudio mixedRun) = [20, 40] ∧
    floorStamps (writtenVideo mixedRun) = [33, 66] :=
  have h := (write_timestamps mixedRun State.init
    ⟨⟨[0x78], 20000000⟩, false, false⟩).1 (by decide)
  ⟨by decide, h.1, h.2.1, (h.2.2.1 (by decide) (by decide)).1,
    (h.2.2.2 (by decide) (by decide)).1, by decide, by decide⟩

/-- C9 as stated fails: the claim has every sample dropped that is popped while
the writer of its track is unset.  At program start the video writer is unset;
the keyframe popped then is written all the same, stamped 33, and its 33 ms are
added to the video timestamp. -/
theorem write_timestamps_counterexample :
    State.init.videoWriter = none ∧
    videoWrites (pushVP8 State.init
      [⟨⟨[0x10, 0x02, 0x00, 0x9d, 0x01, 0x2a, 0x80, 0x02, 0xe0, 0x01], 33000000⟩,
        false, false⟩]).log
      = [(33, ⟨[0x10, 0x02, 0x00, 0x9d, 0x01, 0x2a, 0x80, 0x02, 0xe0, 0x01], 33000000⟩)] ∧
    (pushVP8 State.init
      [⟨⟨[0x10, 0x02, 0x00, 0x9d, 0x01, 0x2a, 0x80, 0x02, 0xe0, 0x01], 33000000⟩,
        false, false⟩]).videoTimestamp = 33000000 := by
  decide

end Twitch

namespace Signal

/-! ## White-space trimming -/

theorem stripFirst_some (encs : List (List Byte)) (s r : List Byte)
    (h : stripFirst encs s = some r) : ∃ e ∈ encs, s = e ++ r := by
  induction encs with
  | nil => simp [stripFirst] at h
  | cons e es ih =>
    unfold stripFirst at h
    by_cases he : e.isPrefixOf s = true
    · rw [if_pos he] at h
      obtain ⟨t, rfl⟩ := List.isPrefixOf_iff_prefix.1 he
      refine ⟨e, List.mem_cons_self _ _, ?_⟩
      simp at h
      rw [h]
    · rw [if_neg he] at h
      obtain ⟨e', he', hs⟩ := ih h
      exact ⟨e', List.mem_cons_of_mem _ he', hs⟩

theorem stripFirst_none (encs : List (List Byte)) (s : List Byte)
    (h : stripFirst encs s = none) : ∀ e ∈ encs, ∀ r, s ≠ e ++ r := by
  induction encs with
  | nil => simp
  | cons e es ih =>
    unfold stripFirst at h
    by_cases he : e.isPrefixOf s = true
    · rw [if_pos he] at h; cases h
    · rw [if_neg he] at h
      intro e' he' r hr
      rcases List.mem_cons.1 he' with rfl | hmem
      · exact he (List.isPrefixOf_iff_prefix.2 ⟨r, hr.symm⟩)
      · exact ih h e' hmem r hr

theorem stripFirst_isSome_of_prefix (encs : List (List Byte)) (e r : List Byte)
    (he : e ∈ encs) : (stripFirst encs (e ++ r)).isSome = true := by
  cases h : stripFirst encs (e ++ r) with
  | some x => rfl
  | none => exact absurd rfl (stripFirst_none encs _ h e he r)

theorem spaceEncodings_ne_nil : ∀ e ∈ spaceEncodings, e ≠ [] := by decide

theorem stripLeading_some (s r : List Byte) (h : stripLeading s = some r) :
    ∃ e ∈ spaceEncodings, s = e ++ r :=
  stripFirst_some _ _ _ h

theorem stripTrailing_some (s r : List Byte) (h : stripTrailing s = some r) :
    ∃ e ∈ spaceEncodings, s = r ++ e := by
  unfold stripTrailing at h
  cases h' : stripFirst (spaceEncodings.map List.reverse) s.reverse with
  | none => simp [h'] at h
  | some x =>
    simp [h'] at h
    obtain ⟨e, he, hs⟩ := stripFirst_some _ _ _ h'
    obtain ⟨e0, he0, rfl⟩ := List.mem_map.1 he
    refine ⟨e0, he0, ?_⟩
    have := congrArg List.reverse hs
    simp at this
    rw [this, ← h]

theorem stripLeading_none (s : List Byte) (h : stripLeading s = none) :
    ∀ e ∈ spaceEncodings, ∀ r, s ≠ e ++ r :=
  stripFirst_none _ _ h

theorem stripTrailing_none (s : List Byte) (h : stripTrailing s = none) :
    ∀ e ∈ spaceEncodings, ∀ r, s ≠ r ++ e := by
  unfold stripTrailing at h
  have h' : stripFirst (spaceEncodings.map List.reverse) s.reverse = none := by
    cases hx : stripFirst (spaceEncodings.map List.reverse) s.reverse with
    | none => rfl
    | some x => simp [hx] at h
  intro e he r hr
  refine stripFirst_none _ _ h' e.reverse (List.mem_map.2 ⟨e, he, rfl⟩) r.reverse ?_
  rw [hr]; simp

/-- What left trimming returns: the rest after a run of white space, with no
leading white space left when the number of rounds is at least the length. -/
theorem trimLeftAux_spec (n : Nat) (s : List Byte) :
    ∃ es : List (List Byte), (∀ e ∈ es, e ∈ spaceEncodings) ∧
      s = es.flatten ++ trimLeftAux n s ∧
      (s.length ≤ n → stripLeading (trimLeftAux n s) = none) := by
  induction n generalizing s with
  | zero =>
    refine ⟨[], by simp, by simp [trimLeftAux], ?_⟩
    intro hlen
    have hs : s = [] := List.length_eq_zero.1 (Nat.le_zero.1 hlen)
    subst hs
    decide
  | succ n ih =>
    unfold trimLeftAux
    cases h : stripLeading s with
    | none => exact ⟨[], by simp, by simp, fun _ => h⟩
    | some rest =>
      obtain ⟨e, he, hs⟩ := stripLeading_some s rest h
      obtain ⟨es, hes, hrest, hnone⟩ := ih rest
      refine ⟨e :: es, ?_, ?_, ?_⟩
      · intro x hx
        rcases List.mem_cons.1 hx with rfl | hx
        · exact he
        · exact hes x hx
      · simp only [List.flatten_cons, List.append_assoc]
        rw [← hrest]; exact hs
      · intro hlen
        apply hnone
        have hne := spaceEncodings_ne_nil e he
        have : 0 < e.length := List.length_pos.2 hne
        have hl := congrArg List.length hs
        simp at hl
        omega

theorem trimRightAux_spec (n : Nat) (s : List Byte) :
    ∃ es : List (List Byte), (∀ e ∈ es, e ∈ spaceEncodings) ∧
      s = trimRightAux n s ++ es.flatten ∧
      (s.length ≤ n → stripTrailing (trimRightAux n s) = none) := by
  induction n generalizing s with
  | zero =>
    refine ⟨[], by simp, by simp [trimRightAux], ?_⟩
    intro hlen
    have hs : s = [] := List.length_eq_zero.1 (Nat.le_zero.1 hlen)
    subst hs
    decide
  | succ n ih =>
    unfold trimRightAux
    cases h : stripTrailing s with
    | none => exact ⟨[], by simp, by simp, fun _ => h⟩
    | some rest =>
      obtain ⟨e, he, hs⟩ := stripTrailing_some s rest h
      obtain ⟨es, hes, hrest, hnone⟩ := ih rest
      refine ⟨es ++ [e], ?_, ?_, ?_⟩
      · intro x hx
        rcases List.mem_append.1 hx with hx | hx
        · exact hes x hx
        · simp at hx; subst hx; exact he
      · simp only [List.flatten_append, List.flatten_cons, List.flatten_nil, List.append_nil,
          ← List.append_assoc]
        rw [← hrest]; exact hs
      · intro hlen
        apply hnone
        have hne := spaceEncodings_ne_nil e he
        have : 0 < e.length := List.length_pos.2 hne
        have hl := congrArg List.length hs
        simp at hl
        omega

/-- Encodings of white-space characters with the same first byte have the same
length (they are UTF-8 encodings). -/
theorem spaceEncodings_head : ∀ e ∈ spaceEncodings, ∀ f ∈ spaceEncodings,
    e.head? = f.head? → e.length = f.length := by decide

/-- No encoding of a white-space character is a proper beginning of another. -/
theorem spaceEncodings_unique (e f r q : List Byte) (he : e ∈ spaceEncodings)
    (hf : f ∈ spaceEncodings) (h : e ++ r = f ++ q) : e = f ∧ r = q := by
  have hne := spaceEncodings_ne_nil e he
  have hnf := spaceEncodings_ne_nil f hf
  have hhead : e.head? = f.head? := by
    cases e with
    | nil => exact absurd rfl hne
    | cons a e' =>
      cases f with
      | nil => exact absurd rfl hnf
      | cons b f' =>
        simp at h
        simp [h.1]
  have hlen := spaceEncodings_head e he f hf hhead
  exact List.append_inj h hlen

theorem stripLeading_append (e r : List Byte) (he : e ∈ spaceEncodings) :
    stripLeading (e ++ r) = some r := by
  cases h : stripLeading (e ++ r) with
  | none => exact absurd rfl (stripLeading_none _ h e he r)
  | some x =>
    obtain ⟨f, hf, hx⟩ := stripLeading_some _ _ h
    rw [(spaceEncodings_unique e f r x he hf hx).2]

theorem trimLeftAux_flatten (es : List (List Byte)) (hes : ∀ e ∈ es, e ∈ spaceEncodings)
    (n : Nat) (hn : es.length ≤ n) : trimLeftAux n es.flatten = [] := by
  induction es generalizing n with
  | nil =>
    have h0 : stripLeading [] = none := by decide
    cases n with
    | zero => rfl
    | succ n => simp [trimLeftAux, h0]
  | cons e es ih =>
    cases n with
    | zero => simp at hn
    | succ n =>
      simp only [List.flatten_cons, trimLeftAux]
      rw [stripLeading_append e _ (hes e (List.mem_cons_self _ _))]
      exact ih (fun x hx => hes x (List.mem_cons_of_mem _ hx)) n (by simpa using hn)

theorem flatten_length_ge (es : List (List Byte)) (hes : ∀ e ∈ es, e ∈ spaceEncodings) :
    es.length ≤ es.flatten.length := by
  induction es with
  | nil => simp
  | cons e es ih =>
    have := List.length_pos.2 (spaceEncodings_ne_nil e (hes e (List.mem_cons_self _ _)))
    have := ih (fun x hx => hes x (List.mem_cons_of_mem _ hx))
    simp only [List.flatten_cons, List.length_append, List.length_cons]
    omega

/-- The result of `strings.TrimSpace`: the argument is the result between two
runs of white space, and the result neither begins nor ends with white space. -/
theorem trimSpace_spec (s : List Byte) :
    (∃ a b, AllSpace a ∧ AllSpace b ∧ s = a ++ trimSpace s ++ b) ∧
    stripLeading (trimSpace s) = none ∧ stripTrailing (trimSpace s) = none := by
  obtain ⟨es, hes, hl, hln⟩ := trimLeftAux_spec s.length s
  obtain ⟨fs, hfs, hr, hrn⟩ := trimRightAux_spec (trimLeft s).length (trimLeft s)
  have hln := hln (le_refl _)
  have hrn := hrn (le_refl _)
  refine ⟨⟨es.flatten, fs.flatten, ⟨es, hes, rfl⟩, ⟨fs, hfs, rfl⟩, ?_⟩, ?_, hrn⟩
  · show s = es.flatten ++ trimRightAux (trimLeft s).length (trimLeft s) ++ fs.flatten
    rw [List.append_assoc, ← hr]
    exact hl
  · cases h : stripLeading (trimSpace s) with
    | none => rfl
    | some x =>
      obtain ⟨e, he, hx⟩ := stripLeading_some _ _ h
      exfalso
      refine stripLeading_none _ hln e he (x ++ fs.flatten) ?_
      show trimLeft s = _
      rw [hr]
      show trimSpace s ++ _ = _
      rw [hx, List.append_assoc]

/-- A string is trimmed to the empty string exactly when it is all white space. -/
theorem trimSpace_eq_nil_iff (s : List Byte) : trimSpace s = [] ↔ AllSpace s := by
  constructor
  · intro h
    obtain ⟨⟨a, b, ⟨es, hes, rfl⟩, ⟨fs, hfs, rfl⟩, hs⟩, _, _⟩ := trimSpace_spec s
    rw [h] at hs
    refine ⟨es ++ fs, ?_, ?_⟩
    · intro e he
      rcases List.mem_append.1 he with he | he
      · exact hes e he
      · exact hfs e he
    · simpa using hs
  · rintro ⟨es, hes, rfl⟩
    have h1 : trimLeft es.flatten = [] :=
      trimLeftAux_flatten es hes _ (flatten_length_ge es hes)
    show trimRight (trimLeft es.flatten) = []
    rw [h1]
    decide

end Signal

namespace Signal

/-! ## The loop of `readUntilNewline` (C3, C4) -/

theorem splitLines_eq_cons (input : List Byte) (h : input ≠ []) :
    splitLines input = (readString input).1 :: splitLines (readString input).2 := by
  induction input with
  | nil => exact absurd rfl h
  | cons b rest ih =>
    by_cases hb : b = 0x0A
    · simp [splitLines, readString, hb]
    · cases rest with
      | nil => simp [splitLines, readString, hb]
      | cons c rest' =>
        have := ih (List.cons_ne_nil _ _)
        simp only [splitLines, readString, hb, if_false] at this ⊢
        rw [this]

/-- The lines of the input, put together, are the input. -/
theorem splitLines_flatten (input : List Byte) : (splitLines input).flatten = input := by
  induction input with
  | nil => rfl
  | cons b rest ih =>
    by_cases hb : b = 0x0A
    · simp [splitLines, hb, ih]
    · simp only [splitLines, hb, if_false]
      cases h : splitLines rest with
      | nil => rw [h] at ih; simp at ih; simp [← ih]
      | cons l ls => rw [h] at ih; simp at ih; simp [← ih]

theorem readLoop_mono (n : Nat) (input : List Byte) (r : List Byte × List Byte)
    (h : readLoop n input = some r) (m : Nat) (hm : n ≤ m) : readLoop m input = some r := by
  induction n generalizing input m with
  | zero => simp [readLoop] at h
  | succ n ih =>
    cases m with
    | zero => omega
    | succ m =>
      simp only [readLoop] at h ⊢
      by_cases ht : (trimSpace (readString input).1).length > 0
      · rw [if_pos ht] at h ⊢; exact h
      · rw [if_neg ht] at h ⊢
        exact ih _ h m (by omega)

/-- The loop breaks at the first line that is not blank. -/
theorem readLoop_of_lines (before : List (List Byte)) (l : List Byte) (after : List (List Byte))
    (input : List Byte) (hsplit : splitLines input = before ++ l :: after)
    (hblank : ∀ x ∈ before, trimSpace x = []) (hl : trimSpace l ≠ []) :
    ∃ rest, readLoop (before.length + 1) input = some (trimSpace l, rest) := by
  induction before generalizing input with
  | nil =>
    have hne : input ≠ [] := by
      rintro rfl
      simp [splitLines] at hsplit
    rw [splitLines_eq_cons input hne] at hsplit
    simp only [List.nil_append, List.cons.injEq] at hsplit
    refine ⟨(readString input).2, ?_⟩
    simp only [List.length_nil, readLoop, hsplit.1]
    rw [if_pos (List.length_pos.2 hl)]
  | cons x xs ih =>
    have hne : input ≠ [] := by
      rintro rfl
      simp [splitLines] at hsplit
    rw [splitLines_eq_cons input hne] at hsplit
    simp only [List.cons_append, List.cons.injEq] at hsplit
    obtain ⟨rest, hrest⟩ := ih (readString input).2 hsplit.2
      (fun y hy => hblank y (List.mem_cons_of_mem _ hy))
    refine ⟨rest, ?_⟩
    have hx : trimSpace x = [] := hblank x (List.mem_cons_self _ _)
    simp only [List.length_cons, readLoop, hsplit.1, hx, List.length_nil]
    rw [if_neg (by omega)]
    exact hrest

/-- On an input whose lines are all blank the loop never breaks. -/
theorem readLoop_blank (fuel : Nat) (input : List Byte)
    (h : ∀ l ∈ splitLines input, trimSpace l = []) : readLoop fuel input = none := by
  induction fuel generalizing input with
  | zero => rfl
  | succ n ih =>
    simp only [readLoop]
    by_cases hne : input = []
    · subst hne
      have h0 : trimSpace (readString ([] : List Byte)).1 = [] := by decide
      rw [h0]
      simp only [List.length_nil, gt_iff_lt, lt_self_iff_false, if_false]
      exact ih _ (by simp [readString, splitLines])
    · have hs := splitLines_eq_cons input hne
      have h1 : trimSpace (readString input).1 = [] := h _ (by rw [hs]; exact List.mem_cons_self _ _)
      rw [h1]
      simp only [List.length_nil, gt_iff_lt, lt_self_iff_false, if_false]
      exact ih _ (fun l hl => h l (by rw [hs]; exact List.mem_cons_of_mem _ hl))

/-- The first element of a list that fails a decidable property. -/
theorem exists_first_failing {α : Type} (p : α → Prop) [DecidablePred p] (xs : List α)
    (h : ∃ x ∈ xs, ¬ p x) :
    ∃ before l after, xs = before ++ l :: after ∧ (∀ x ∈ before, p x) ∧ ¬ p l := by
  induction xs with
  | nil => simp at h
  | cons x xs ih =>
    by_cases hx : p x
    · obtain ⟨y, hy, hpy⟩ := h
      have hy' : y ∈ xs := by
        rcases List.mem_cons.1 hy with rfl | hy
        · exact absurd hx hpy
        · exact hy
      obtain ⟨before, l, after, hsplit, hb, hl⟩ := ih ⟨y, hy', hpy⟩
      refine ⟨x :: before, l, after, by simp [hsplit], ?_, hl⟩
      intro z hz
      rcases List.mem_cons.1 hz with rfl | hz
      · exact hx
      · exact hb z hz
    · exact ⟨[], x, xs, rfl, by simp, hx⟩

/-- The loop breaks exactly on the inputs that have a line which is not blank. -/
theorem readsLine_iff (input : List Byte) :
    (∃ v, ReadsLine input v) ↔ ∃ l ∈ splitLines input, ¬ AllSpace l := by
  constructor
  · rintro ⟨v, fuel, rest, h⟩
    by_contra hno
    have hall : ∀ l ∈ splitLines input, trimSpace l = [] := by
      intro l hl
      by_contra hne
      exact hno ⟨l, hl, fun ha => hne ((trimSpace_eq_nil_iff l).2 ha)⟩
    rw [readLoop_blank fuel input hall] at h
    cases h
  · intro h
    obtain ⟨before, l, after, hsplit, hb, hl⟩ :=
      exists_first_failing (fun x => trimSpace x = []) (splitLines input)
        (by
          obtain ⟨l, hl, hns⟩ := h
          exact ⟨l, hl, fun ht => hns ((trimSpace_eq_nil_iff l).1 ht)⟩)
    obtain ⟨rest, hrest⟩ := readLoop_of_lines before l after input hsplit hb hl
    exact ⟨trimSpace l, before.length + 1, rest, hrest⟩

end Signal

namespace Signal

/-- C3: on an input with a line that is not all white space, `readUntilNewline`
returns the first such line trimmed of its leading and trailing white space; every
earlier line is all white space; the result is not empty and neither begins nor
ends with white space.  The lines include a last line that ends at end of file. -/
theorem readUntilNewline_first_line (input : List Byte)
    (h : ∃ l ∈ splitLines input, ¬ AllSpace l) :
    ∃ before l after,
      splitLines input = before ++ l :: after ∧
      (before ++ l :: after).flatten = input ∧
      (∀ x ∈ before, AllSpace x) ∧ ¬ AllSpace l ∧
      ReadsLine input (trimSpace l) ∧
      (∀ v, ReadsLine input v → v = trimSpace l) ∧
      trimSpace l ≠ [] ∧
      (∃ a b, AllSpace a ∧ AllSpace b ∧ l = a ++ trimSpace l ++ b) ∧
      stripLeading (trimSpace l) = none ∧ stripTrailing (trimSpace l) = none := by
  obtain ⟨before, l, after, hsplit, hb, hl⟩ :=
    exists_first_failing (fun x => trimSpace x = []) (splitLines input)
      (by
        obtain ⟨l, hl, hns⟩ := h
        exact ⟨l, hl, fun ht => hns ((trimSpace_eq_nil_iff l).1 ht)⟩)
  obtain ⟨rest, hrest⟩ := readLoop_of_lines before l after input hsplit hb hl
  obtain ⟨hdecomp, hlead, htrail⟩ := trimSpace_spec l
  refine ⟨before, l, after, hsplit, ?_, ?_, ?_, ⟨_, rest, hrest⟩, ?_, hl, hdecomp, hlead, htrail⟩
  · rw [← hsplit]; exact splitLines_flatten input
  · exact fun x hx => (trimSpace_eq_nil_iff x).1 (hb x hx)
  · exact fun ha => hl ((trimSpace_eq_nil_iff l).2 ha)
  · rintro v ⟨fuel, rest', hv⟩
    have h1 := readLoop_mono _ _ _ hrest (max fuel (before.length + 1)) (le_max_right _ _)
    have h2 := readLoop_mono _ _ _ hv (max fuel (before.length + 1)) (le_max_left _ _)
    rw [h1] at h2
    simp only [Option.some.injEq, Prod.mk.injEq] at h2
    exact h2.1.symm

/-- Witness of `readUntilNewline_first_line`: two blank lines, then a last line
that ends at end of file. -/
theorem readUntilNewline_first_line_witness :
    ∃ before l after,
      splitLines (ascii " \n\n  offer ") = before ++ l :: after ∧
      (before ++ l :: after).flatten = ascii " \n\n  offer " ∧
      (∀ x ∈ before, AllSpace x) ∧ ¬ AllSpace l ∧
      ReadsLine (ascii " \n\n  offer ") (trimSpace l) ∧
      (∀ v, ReadsLine (ascii " \n\n  offer ") v → v = trimSpace l) ∧
      trimSpace l ≠ [] ∧
      (∃ a b, AllSpace a ∧ AllSpace b ∧ l = a ++ trimSpace l ++ b) ∧
      stripLeading (trimSpace l) = none ∧ stripTrailing (trimSpace l) = none :=
  readUntilNewline_first_line (ascii " \n\n  offer ")
    ⟨ascii "  offer ", by decide,
      fun ha => absurd ((trimSpace_eq_nil_iff _).2 ha) (by decide)⟩

/-- On every finite input with a line that is not all white space the loop of
`readUntilNewline` ends, after finitely many iterations. -/
theorem readUntilNewline_terminates (input : List Byte)
    (h : ∃ l ∈ splitLines input, ¬ AllSpace l) :
    ∃ fuel v rest, readLoop fuel input = some (v, rest) := by
  obtain ⟨v, fuel, rest, hv⟩ := (readsLine_iff input).2 h
  exact ⟨fuel, v, rest, hv⟩

/-- Witness of `readUntilNewline_terminates`: a blank line and then a line of text. -/
theorem readUntilNewline_terminates_witness :
    ∃ fuel v rest, readLoop fuel (ascii "\nabc\n") = some (v, rest) :=
  readUntilNewline_terminates (ascii "\nabc\n")
    ⟨ascii "abc\n", by decide,
      fun ha => absurd ((trimSpace_eq_nil_iff _).2 ha) (by decide)⟩

/-- C4: the code departs from the claim, and from the comment of the function
("Read from stdin until we get a newline").  On the standard input that consists
of one newline, which contains a newline, the first line read is blank and is
skipped, every later `ReadString` returns the empty string with `io.EOF`, which
the loop ignores, and the loop is still running after any number of iterations. -/
theorem readUntilNewline_newline_loops :
    (0x0A : Byte) ∈ ([0x0A] : List Byte) ∧ ∀ fuel, readLoop fuel [0x0A] = none :=
  ⟨by decide, fun fuel => readLoop_blank fuel [0x0A] (by decide)⟩

end Signal

namespace PlayFromDisk

/-! ## Rounding to `float64` -/

theorem log2Aux_spec (fuel n : Nat) (hn : 0 < n) (hf : n ≤ fuel) :
    2 ^ log2Aux fuel n ≤ n ∧ n < 2 ^ (log2Aux fuel n + 1) := by
  induction fuel generalizing n with
  | zero => omega
  | succ fuel ih =>
    unfold log2Aux
    by_cases h2 : n < 2
    · rw [if_pos h2]
      have : n = 1 := by omega
      subst this
      decide
    · rw [if_neg h2]
      obtain ⟨h1, h3⟩ := ih (n / 2) (by omega) (by omega)
      rw [Nat.pow_succ, Nat.pow_succ]
      rw [Nat.pow_succ] at h3
      constructor <;> omega

theorem log2_spec (n : Nat) (hn : 0 < n) : 2 ^ log2 n ≤ n ∧ n < 2 ^ (log2 n + 1) :=
  log2Aux_spec n n hn (le_refl _)

/-- The comparison made by `floorLog`, cleared of the exponent difference. -/
theorem floorLog_cond (num den a b : Nat) :
    (if 0 ≤ ((a : Int) - (b : Int)) then den * 2 ^ ((a : Int) - (b : Int)).toNat ≤ num
      else den ≤ num * 2 ^ (-((a : Int) - (b : Int))).toNat)
    ↔ den * 2 ^ a ≤ num * 2 ^ b := by
  by_cases h : 0 ≤ ((a : Int) - (b : Int))
  · rw [if_pos h]
    have hba : b ≤ a := by omega
    have ht : ((a : Int) - (b : Int)).toNat = a - b := by omega
    rw [ht]
    have hpow : 2 ^ a = 2 ^ (a - b) * 2 ^ b := by
      rw [← Nat.pow_add]; congr 1; omega
    rw [hpow, ← Nat.mul_assoc]
    exact (mul_le_mul_right (by positivity)).symm
  · rw [if_neg h]
    have hab : a ≤ b := by omega
    have ht : (-((a : Int) - (b : Int))).toNat = b - a := by omega
    rw [ht]
    have hpow : 2 ^ b = 2 ^ (b - a) * 2 ^ a := by
      rw [← Nat.pow_add]; congr 1; omega
    rw [hpow, ← Nat.mul_assoc]
    exact (mul_le_mul_right (by positivity)).symm

/-- The exponent found by `floorLog` brackets the quotient. -/
theorem floorLog_spec (num den : Nat) (hn : 0 < num) (hd : 0 < den) :
    (2 : ℚ) ^ floorLog num den ≤ (num : ℚ) / den ∧
    (num : ℚ) / den < (2 : ℚ) ^ (floorLog num den + 1) := by
  obtain ⟨ha1, ha2⟩ := log2_spec num hn
  obtain ⟨hb1, hb2⟩ := log2_spec den hd
  have hdq : (0 : ℚ) < den := by exact_mod_cast hd
  have hA : (0 : ℚ) < 2 ^ log2 num := by positivity
  have hB : (0 : ℚ) < 2 ^ log2 den := by positivity
  have qa1 : (2 : ℚ) ^ log2 num ≤ num := by exact_mod_cast ha1
  have qa2 : (num : ℚ) < 2 * 2 ^ log2 num := by
    have : num < 2 * 2 ^ log2 num := by rw [Nat.pow_succ] at ha2; omega
    exact_mod_cast this
  have qb1 : (2 : ℚ) ^ log2 den ≤ den := by exact_mod_cast hb1
  have qb2 : (den : ℚ) < 2 * 2 ^ log2 den := by
    have : den < 2 * 2 ^ log2 den := by rw [Nat.pow_succ] at hb2; omega
    exact_mod_cast this
  have ht : (2 : ℚ) ^ ((log2 num : Int) - (log2 den : Int))
      = 2 ^ log2 num / 2 ^ log2 den := by
    rw [zpow_sub₀ (by norm_num), zpow_natCast, zpow_natCast]
  have ht1 : (2 : ℚ) ^ ((log2 num : Int) - (log2 den : Int) + 1)
      = 2 * 2 ^ log2 num / 2 ^ log2 den := by
    rw [zpow_add_one₀ (by norm_num), ht]; ring
  have ht0 : (2 : ℚ) ^ ((log2 num : Int) - (log2 den : Int) - 1)
      = 2 ^ log2 num / (2 * 2 ^ log2 den) := by
    rw [zpow_sub_one₀ (by norm_num), ht]; field_simp; ring
  unfold floorLog
  simp only [floorLog_cond]
  by_cases hc : den * 2 ^ log2 num ≤ num * 2 ^ log2 den
  · rw [if_pos hc, ht, ht1]
    have qc : (den : ℚ) * 2 ^ log2 num ≤ num * 2 ^ log2 den := by exact_mod_cast hc
    constructor
    · rw [div_le_div_iff₀ hB hdq]; linarith
    · rw [div_lt_div_iff₀ hdq hB]
      nlinarith
  · rw [if_neg hc, ht0]
    have qc : (num : ℚ) * 2 ^ log2 den < den * 2 ^ log2 num := by
      have := Nat.lt_of_not_le hc
      exact_mod_cast this
    constructor
    · rw [div_le_div_iff₀ (by positivity) hdq]
      nlinarith
    · rw [show (log2 num : Int) - (log2 den : Int) - 1 + 1
          = (log2 num : Int) - (log2 den : Int) by ring, ht, div_lt_div_iff₀ hdq hB]
      linarith

/-- Rounding to the nearest integer is within one half. -/
theorem roundNearest_spec (n d : Nat) (e : Int) (hd : 0 < d) :
    (roundNearest n d e).e = e ∧
    |((roundNearest n d e).m : ℚ) - (n : ℚ) / d| ≤ 1 / 2 := by
  have hdq : (0 : ℚ) < d := by exact_mod_cast hd
  have hsplit : (n : ℚ) / d = (n / d : Nat) + ((n % d : Nat) : ℚ) / d := by
    have h := Nat.div_add_mod n d
    have hq : (n : ℚ) = d * (n / d : Nat) + (n % d : Nat) := by exact_mod_cast h.symm
    field_simp
    linarith
  have hr0 : (0 : ℚ) ≤ ((n % d : Nat) : ℚ) / d := by positivity
  unfold roundNearest
  by_cases h1 : 2 * (n % d) > d
  · rw [if_pos h1]
    refine ⟨rfl, ?_⟩
    have q1 : (d : ℚ) < 2 * (n % d : Nat) := by exact_mod_cast h1
    have q2 : ((n % d : Nat) : ℚ) < d := by exact_mod_cast Nat.mod_lt n hd
    have h3 : (1 : ℚ) / 2 < ((n % d : Nat) : ℚ) / d := by
      rw [div_lt_div_iff₀ (by norm_num) hdq]; linarith
    have h4 : ((n % d : Nat) : ℚ) / d < 1 := by
      rw [div_lt_one hdq]; exact q2
    simp only [hsplit]
    push_cast
    rw [abs_le]
    constructor <;> linarith
  · rw [if_neg h1]
    by_cases h2 : 2 * (n % d) = d
    · rw [if_pos h2]
      have q1 : (2 : ℚ) * (n % d : Nat) = d := by exact_mod_cast h2
      have h3 : ((n % d : Nat) : ℚ) / d = 1 / 2 := by
        rw [div_eq_div_iff (ne_of_gt hdq) (by norm_num)]; linarith
      split
      · refine ⟨rfl, ?_⟩
        simp only [hsplit, h3]
        push_cast
        rw [abs_le]
        constructor <;> linarith
      · refine ⟨rfl, ?_⟩
        simp only [hsplit, h3]
        rw [abs_le]
        constructor <;> linarith
    · rw [if_neg h2]
      refine ⟨rfl, ?_⟩
      have q1 : (2 : ℚ) * (n % d : Nat) < d := by
        have : 2 * (n % d) < d := by omega
        exact_mod_cast this
      have h3 : ((n % d : Nat) : ℚ) / d < 1 / 2 := by
        rw [div_lt_div_iff₀ hdq (by norm_num)]; linarith
      simp only [hsplit]
      rw [abs_le]
      constructor <;> linarith

/-- The result of `roundQuot`: with the exponent `e` of the result, the quotient
scaled by `2 ^ e` has 53 bits and the significand is within one half of it. -/
theorem roundQuot_spec (num den : Nat) (hn : 0 < num) (hd : 0 < den) :
    (2 : ℚ) ^ 52 ≤ (num : ℚ) / den / 2 ^ (roundQuot num den).e ∧
    (num : ℚ) / den / 2 ^ (roundQuot num den).e < 2 ^ 53 ∧
    |((roundQuot num den).m : ℚ) - (num : ℚ) / den / 2 ^ (roundQuot num den).e| ≤ 1 / 2 := by
  obtain ⟨hf1, hf2⟩ := floorLog_spec num den hn hd
  have hdq : (0 : ℚ) < den := by exact_mod_cast hd
  have hpe : ∀ e : Int, (0 : ℚ) < 2 ^ e := fun e => by positivity
  have hsub : (2 : ℚ) ^ floorLog num den = 2 ^ (floorLog num den - 52) * 2 ^ 52 := by
    rw [zpow_sub₀ (by norm_num)]
    norm_num
  have hsub1 : (2 : ℚ) ^ (floorLog num den + 1) = 2 ^ (floorLog num den - 52) * 2 ^ 53 := by
    rw [zpow_add_one₀ (by norm_num), hsub]; ring
  have hbr1 : (2 : ℚ) ^ 52 ≤ (num : ℚ) / den / 2 ^ (floorLog num den - 52) := by
    rw [le_div_iff₀ (hpe _)]; linarith
  have hbr2 : (num : ℚ) / den / 2 ^ (floorLog num den - 52) < 2 ^ 53 := by
    rw [div_lt_iff₀ (hpe _)]; linarith
  have hne : ¬ (num = 0 ∨ den = 0) := by omega
  unfold roundQuot
  rw [if_neg hne]
  simp only []
  by_cases he : floorLog num den - 52 < 0
  · rw [if_pos he]
    obtain ⟨h1, h2⟩ := roundNearest_spec (num * 2 ^ (-(floorLog num den - 52)).toNat) den
      (floorLog num den - 52) hd
    have hk : (2 : ℚ) ^ (floorLog num den - 52)
        = 1 / 2 ^ (-(floorLog num den - 52)).toNat := by
      have : floorLog num den - 52 = -(((-(floorLog num den - 52)).toNat : Nat) : Int) := by
        omega
      conv_lhs => rw [this]
      rw [zpow_neg, zpow_natCast]; simp
    have hval : ((num * 2 ^ (-(floorLog num den - 52)).toNat : Nat) : ℚ) / den
        = (num : ℚ) / den / 2 ^ (floorLog num den - 52) := by
      rw [hk]; push_cast; field_simp
    rw [h1]
    rw [hval] at h2
    exact ⟨hbr1, hbr2, h2⟩
  · rw [if_neg he]
    obtain ⟨h1, h2⟩ := roundNearest_spec num (den * 2 ^ (floorLog num den - 52).toNat)
      (floorLog num den - 52) (by positivity)
    have hk : (2 : ℚ) ^ (floorLog num den - 52) = 2 ^ (floorLog num den - 52).toNat := by
      have : floorLog num den - 52 = (((floorLog num den - 52).toNat : Nat) : Int) := by
        omega
      conv_lhs => rw [this]
      rw [zpow_natCast]
    have hval : (num : ℚ) / ((den * 2 ^ (floorLog num den - 52).toNat : Nat) : ℚ)
        = (num : ℚ) / den / 2 ^ (floorLog num den - 52) := by
      rw [hk]; push_cast; field_simp
    rw [h1]
    rw [hval] at h2
    exact ⟨hbr1, hbr2, h2⟩

theorem roundScaled_spec (num den : Nat) (e : Int) (hn : 0 < num) (hd : 0 < den) :
    IsRounding (roundScaled num den e) ((num : ℚ) / den * 2 ^ e) := by
  have hdq : (0 : ℚ) < den := by exact_mod_cast hd
  unfold roundScaled
  by_cases he : 0 ≤ e
  · rw [if_pos he]
    have hk : (2 : ℚ) ^ e = 2 ^ e.toNat := by
      have : e = ((e.toNat : Nat) : Int) := by omega
      conv_lhs => rw [this]
      rw [zpow_natCast]
    have hv : ((num * 2 ^ e.toNat : Nat) : ℚ) / den = (num : ℚ) / den * 2 ^ e := by
      rw [hk]; push_cast; field_simp
    have h := roundQuot_spec (num * 2 ^ e.toNat) den (by positivity) hd
    rw [hv] at h
    exact h
  · rw [if_neg he]
    have hk : (2 : ℚ) ^ e = 1 / 2 ^ (-e).toNat := by
      have : e = -(((-e).toNat : Nat) : Int) := by omega
      conv_lhs => rw [this]
      rw [zpow_neg, zpow_natCast]; simp
    have hv : (num : ℚ) / ((den * 2 ^ (-e).toNat : Nat) : ℚ) = (num : ℚ) / den * 2 ^ e := by
      rw [hk]; push_cast; field_simp
    have h := roundQuot_spec num (den * 2 ^ (-e).toNat) hn (by positivity)
    rw [hv] at h
    exact h

/-- The `float64` quotient is a rounding of the exact quotient. -/
theorem div_spec (x y : F64) (hx : 0 < x.m) (hy : 0 < y.m) :
    IsRounding (F64.div x y) (x.val / y.val) := by
  have h := roundScaled_spec x.m y.m (x.e - y.e) hx hy
  have hv : (x.m : ℚ) / y.m * 2 ^ (x.e - y.e) = x.val / y.val := by
    unfold F64.val
    rw [zpow_sub₀ (by norm_num)]
    have : (0 : ℚ) < 2 ^ y.e := by positivity
    have : (0 : ℚ) < y.m := by exact_mod_cast hy
    field_simp
  rw [hv] at h
  exact h

/-- The `float64` product is a rounding of the exact product. -/
theorem mul_spec (x y : F64) (hx : 0 < x.m) (hy : 0 < y.m) :
    IsRounding (F64.mul x y) (x.val * y.val) := by
  have h := roundScaled_spec (x.m * y.m) 1 (x.e + y.e) (Nat.mul_pos hx hy) (by decide)
  have hv : ((x.m * y.m : Nat) : ℚ) / (1 : Nat) * 2 ^ (x.e + y.e) = x.val * y.val := by
    unfold F64.val
    rw [zpow_add₀ (by norm_num)]
    push_cast
    ring
  rw [hv] at h
  exact h

/-- A rounding has a positive significand and a relative error of at most `2 ^ (-53)`. -/
theorem IsRounding.bound (x : F64) (v : ℚ) (h : IsRounding x v) :
    0 < x.m ∧ 0 < v ∧ |x.val - v| ≤ v / 2 ^ 53 := by
  obtain ⟨h1, h2, h3⟩ := h
  have hpe : (0 : ℚ) < 2 ^ x.e := by positivity
  rw [abs_le] at h3
  have hv : 0 < v := by
    by_contra hneg
    have : v / 2 ^ x.e ≤ 0 := div_nonpos_of_nonpos_of_nonneg (not_lt.1 hneg) hpe.le
    linarith [show (0 : ℚ) < 2 ^ 52 by positivity]
  have hm : (0 : ℚ) < x.m := by
    have : (1 : ℚ) ≤ 2 ^ 52 := by norm_num
    linarith
  refine ⟨by exact_mod_cast hm, hv, ?_⟩
  have hs : v = v / 2 ^ x.e * 2 ^ x.e := by field_simp
  have hle : (2 : ℚ) ^ x.e * 2 ^ 52 ≤ v := by
    calc (2 : ℚ) ^ x.e * 2 ^ 52 ≤ 2 ^ x.e * (v / 2 ^ x.e) := by
          exact mul_le_mul_of_nonneg_left h1 hpe.le
      _ = v := by field_simp
  unfold F64.val
  rw [abs_le]
  have e1 : (x.m : ℚ) * 2 ^ x.e - v = ((x.m : ℚ) - v / 2 ^ x.e) * 2 ^ x.e := by
    field_simp
  have hhalf : (2 : ℚ) ^ x.e / 2 ≤ v / 2 ^ 53 := by
    rw [div_le_div_iff₀ (by norm_num) (by positivity)]
    nlinarith
  rw [e1]
  constructor
  · nlinarith [h3.1]
  · nlinarith [h3.2]

/-- Integers below `2 ^ 53` convert to `float64` without error. -/
theorem ofNat_val (s : Nat) (h0 : 0 < s) (h1 : s < 2 ^ 53) :
    (F64.ofNat s).val = s ∧ 0 < (F64.ofNat s).m := by
  have h := roundQuot_spec s 1 h0 (by decide)
  have hm := (IsRounding.bound _ _ h).1
  refine ⟨?_, hm⟩
  obtain ⟨hb1, hb2, hb3⟩ := h
  simp only [Nat.cast_one, div_one] at hb1 hb2 hb3
  change (2 : ℚ) ^ 52 ≤ (s : ℚ) / 2 ^ (F64.ofNat s).e at hb1
  change |((F64.ofNat s).m : ℚ) - (s : ℚ) / 2 ^ (F64.ofNat s).e| ≤ 1 / 2 at hb3
  have hsq : (s : ℚ) < 2 ^ 53 := by exact_mod_cast h1
  have he : (F64.ofNat s).e ≤ 0 := by
    by_contra hpos
    have hge : (1 : Int) ≤ (F64.ofNat s).e := by omega
    have h2 : (2 : ℚ) ^ (1 : Int) ≤ 2 ^ (F64.ofNat s).e :=
      zpow_le_zpow_right₀ (by norm_num) hge
    have hpe : (0 : ℚ) < 2 ^ (F64.ofNat s).e := by positivity
    rw [le_div_iff₀ hpe] at hb1
    norm_num at h2
    nlinarith
  have hk : (2 : ℚ) ^ (F64.ofNat s).e = 1 / 2 ^ (-(F64.ofNat s).e).toNat := by
    have : (F64.ofNat s).e = -(((-(F64.ofNat s).e).toNat : Nat) : Int) := by omega
    conv_lhs => rw [this]
    rw [zpow_neg, zpow_natCast]; simp
  have hN : (s : ℚ) / 2 ^ (F64.ofNat s).e = ((s * 2 ^ (-(F64.ofNat s).e).toNat : Nat) : ℚ) := by
    rw [hk]; push_cast; field_simp
  rw [hN, abs_le] at hb3
  have hmN : (F64.ofNat s).m = s * 2 ^ (-(F64.ofNat s).e).toNat := by
    by_contra hne
    rcases Nat.lt_or_gt_of_ne hne with hlt | hgt
    · have : ((F64.ofNat s).m : ℚ) + 1 ≤ ((s * 2 ^ (-(F64.ofNat s).e).toNat : Nat) : ℚ) := by
        exact_mod_cast hlt
      linarith [hb3.1]
    · have : ((s * 2 ^ (-(F64.ofNat s).e).toNat : Nat) : ℚ) + 1 ≤ ((F64.ofNat s).m : ℚ) := by
        exact_mod_cast hgt
      linarith [hb3.2]
  unfold F64.val
  rw [hmN, hk]
  push_cast
  field_simp

/-- Conversion of a value between two consecutive integers to `int64`. -/
theorem trunc_eq (x : F64) (k : Nat) (h1 : (k : ℚ) ≤ x.val) (h2 : x.val < k + 1) :
    F64.trunc x = k := by
  unfold F64.val at h1 h2
  unfold F64.trunc
  by_cases he : 0 ≤ x.e
  · rw [if_pos he]
    have hk : (2 : ℚ) ^ x.e = 2 ^ x.e.toNat := by
      have : x.e = ((x.e.toNat : Nat) : Int) := by omega
      conv_lhs => rw [this]
      rw [zpow_natCast]
    rw [hk] at h1 h2
    have a1 : k ≤ x.m * 2 ^ x.e.toNat := by exact_mod_cast h1
    have a2 : x.m * 2 ^ x.e.toNat < k + 1 := by exact_mod_cast h2
    have : x.m * 2 ^ x.e.toNat = k := by omega
    rw [this]
  · rw [if_neg he]
    have hk : (2 : ℚ) ^ x.e = 1 / 2 ^ (-x.e).toNat := by
      have : x.e = -(((-x.e).toNat : Nat) : Int) := by omega
      conv_lhs => rw [this]
      rw [zpow_neg, zpow_natCast]; simp
    rw [hk] at h1 h2
    have hp : (0 : ℚ) < 2 ^ (-x.e).toNat := by positivity
    have b1 : (k : ℚ) * 2 ^ (-x.e).toNat ≤ x.m := by
      have := mul_le_mul_of_nonneg_right h1 hp.le
      field_simp at this
      linarith
    have b2 : (x.m : ℚ) < (k + 1) * 2 ^ (-x.e).toNat := by
      have := mul_lt_mul_of_pos_right h2 hp
      field_simp at this
      linarith
    have a1 : k * 2 ^ (-x.e).toNat ≤ x.m := by exact_mod_cast b1
    have a2 : x.m < (k + 1) * 2 ^ (-x.e).toNat := by exact_mod_cast b2
    have hdiv : x.m / 2 ^ (-x.e).toNat = k := by
      apply Nat.div_eq_of_lt_le
      · exact a1
      · exact a2
    rw [hdiv]

/-- Two successive roundings with relative error `ε`: a division, then a
multiplication by 1000. -/
theorem two_roundings (a xv yv ε : ℚ) (ha : 0 ≤ a) (h0 : 0 ≤ ε) (h1 : ε ≤ 1)
    (hx : |xv - a| ≤ a * ε) (hy : |yv - xv * 1000| ≤ xv * 1000 * ε) :
    1000 * a - 2 * (1000 * a) * ε ≤ yv ∧ yv ≤ 1000 * a + 3 * (1000 * a) * ε := by
  rw [abs_le] at hx hy
  obtain ⟨hx1, hx2⟩ := hx
  obtain ⟨hy1, hy2⟩ := hy
  have p1 : 0 ≤ (a + a * ε - xv) * (1 + ε) := mul_nonneg (by linarith) (by linarith)
  have p2 : 0 ≤ a * ε * (1 - ε) := mul_nonneg (mul_nonneg ha h0) (by linarith)
  have p3 : 0 ≤ (xv - (a - a * ε)) * (1 - ε) := mul_nonneg (by linarith) (by linarith)
  have p4 : 0 ≤ a * ε * ε := mul_nonneg (mul_nonneg ha h0) h0
  constructor <;> nlinarith

/-- The `float64` value `(float64(s) / 48000) * 1000` is within a relative error
of `2 ^ (-51)` of `s / 48`. -/
theorem pageValue_bounds (s : Nat) (h0 : 0 < s) (h1 : s < 2 ^ 53) :
    (s : ℚ) / 48 - (s : ℚ) / 48 / 2 ^ 52
      ≤ (F64.mul (F64.div (F64.ofNat s) (F64.ofNat 48000)) (F64.ofNat 1000)).val ∧
    (F64.mul (F64.div (F64.ofNat s) (F64.ofNat 48000)) (F64.ofNat 1000)).val
      ≤ (s : ℚ) / 48 + (s : ℚ) / 48 / 2 ^ 51 := by
  obtain ⟨hsv, hsm⟩ := ofNat_val s h0 h1
  obtain ⟨hcv, hcm⟩ := ofNat_val 48000 (by decide) (by norm_num)
  obtain ⟨htv, htm⟩ := ofNat_val 1000 (by decide) (by norm_num)
  have hX := div_spec _ _ hsm hcm
  rw [hsv, hcv] at hX
  obtain ⟨hXm, hXv, hXb⟩ := IsRounding.bound _ _ hX
  have hY := mul_spec _ _ hXm htm
  rw [htv] at hY
  obtain ⟨_, _, hYb⟩ := IsRounding.bound _ _ hY
  have hsq : (0 : ℚ) < s := by exact_mod_cast h0
  have h := two_roundings ((s : ℚ) / (48000 : Nat)) _ _ (1 / 2 ^ 53) (by positivity)
    (by positivity) (by norm_num)
    (by rw [mul_one_div]; exact hXb)
    (by rw [mul_one_div]; exact_mod_cast hYb)
  obtain ⟨hl, hu⟩ := h
  push_cast at hl hu
  constructor
  · have : (s : ℚ) / 48 - (s : ℚ) / 48 / 2 ^ 52
        = 1000 * ((s : ℚ) / 48000) - 2 * (1000 * ((s : ℚ) / 48000)) * (1 / 2 ^ 53) := by
      ring
    rw [this]; exact hl
  · have h3 : 1000 * ((s : ℚ) / 48000) + 3 * (1000 * ((s : ℚ) / 48000)) * (1 / 2 ^ 53)
        ≤ (s : ℚ) / 48 + (s : ℚ) / 48 / 2 ^ 51 := by
      have : (s : ℚ) / 48 + (s : ℚ) / 48 / 2 ^ 51
          - (1000 * ((s : ℚ) / 48000) + 3 * (1000 * ((s : ℚ) / 48000)) * (1 / 2 ^ 53))
          = (s : ℚ) / 48 / 2 ^ 53 := by ring
      have hp : (0 : ℚ) ≤ (s : ℚ) / 48 / 2 ^ 53 := by positivity
      linarith
    exact le_trans hu h3

end PlayFromDisk

namespace PlayFromDisk

/-- The number of milliseconds computed for a page of `s` samples, `s < 2 ^ 48`:
the floor of `s * 1000 / 48000` when `s` is not a multiple of 48, and that or
one less when it is. -/
theorem pageMillis_spec (s : Nat) (hs : s < 2 ^ 48) :
    (s % 48 ≠ 0 → pageMillis s = ((s * 1000 / 48000 : Nat) : Int)) ∧
    (s % 48 = 0 → pageMillis s = ((s * 1000 / 48000 : Nat) : Int) ∨
      pageMillis s = ((s * 1000 / 48000 : Nat) : Int) - 1) := by
  have hfloor : s * 1000 / 48000 = s / 48 := by omega
  rw [hfloor]
  rcases Nat.eq_zero_or_pos s with rfl | h0
  · refine ⟨fun h => absurd rfl h, fun _ => Or.inl ?_⟩
    decide!
  obtain ⟨hl, hu⟩ := pageValue_bounds s h0 (by omega)
  have hdm := Nat.div_add_mod s 48
  have hsq : (s : ℚ) = 48 * (s / 48 : Nat) + (s % 48 : Nat) := by exact_mod_cast hdm.symm
  have hslt : (s : ℚ) < 281474976710656 := by
    have : s < 281474976710656 := by omega
    exact_mod_cast this
  norm_num at hl hu
  have hr47 : ((s % 48 : Nat) : ℚ) ≤ 47 := by
    have : s % 48 ≤ 47 := by omega
    exact_mod_cast this
  have hk0 : (0 : ℚ) ≤ (s / 48 : Nat) := by positivity
  constructor
  · intro hr
    have hr1 : (1 : ℚ) ≤ (s % 48 : Nat) := by
      have : 1 ≤ s % 48 := by omega
      exact_mod_cast this
    unfold pageMillis
    rw [trunc_eq _ (s / 48) (by linarith)
      (by linarith)]
  · intro hr
    have hr0 : ((s % 48 : Nat) : ℚ) = 0 := by exact_mod_cast hr
    have hkpos : 1 ≤ s / 48 := by omega
    unfold pageMillis
    by_cases hge : ((s / 48 : Nat) : ℚ)
        ≤ (F64.mul (F64.div (F64.ofNat s) (F64.ofNat 48000)) (F64.ofNat 1000)).val
    · left
      rw [trunc_eq _ (s / 48) hge (by linarith)]
    · right
      have hk1 : ((s / 48 - 1 : Nat) : ℚ) = (s / 48 : Nat) - 1 := by
        rw [Nat.cast_sub hkpos]; simp
      rw [trunc_eq _ (s / 48 - 1) (by rw [hk1]; linarith)
        (by rw [hk1]; linarith)]
      omega

theorem playPages_last (gs : List Nat) (lastGranule : Nat) :
    (playPages lastGranule gs).2 = gs.getLast?.getD lastGranule := by
  induction gs generalizing lastGranule with
  | nil => rfl
  | cons g gs ih =>
    simp only [playPages, pageStep]
    rw [ih g]
    cases gs with
    | nil => simp
    | cons a t =>
      rw [List.getLast?_cons_cons]
      cases hx : (a :: t).getLast? with
      | none => simp at hx
      | some v => simp

/-- The duration handed to `WriteSample` for a page whose granule position
exceeds the previous one by less than `2 ^ 48` samples: a whole number of
milliseconds, the floor of `samples * 1000 / 48000` when the count is not a
multiple of 48 and that or one millisecond less when it is; and after each page
`lastGranule` is the granule position of that page. -/
theorem pageStep_bounds (lastGranule granule : Nat) (gs : List Nat)
    (h1 : lastGranule ≤ granule) (h2 : granule < 2 ^ 64)
    (h3 : granule - lastGranule < 2 ^ 48) :
    sampleCount lastGranule granule = granule - lastGranule ∧
    (pageStep lastGranule granule).2 = granule ∧
    (playPages lastGranule (gs ++ [granule])).2 = granule ∧
    ((granule - lastGranule) % 48 ≠ 0 →
      (pageStep lastGranule granule).1
        = (((granule - lastGranule) * 1000 / 48000 : Nat) : Int) * 1000000) ∧
    ((granule - lastGranule) % 48 = 0 →
      (pageStep lastGranule granule).1
        = (((granule - lastGranule) * 1000 / 48000 : Nat) : Int) * 1000000 ∨
      (pageStep lastGranule granule).1
        = ((((granule - lastGranule) * 1000 / 48000 : Nat) : Int) - 1) * 1000000) ∧
    pageDuration 960 = 20 * 1000000 := by
  have hcount : sampleCount lastGranule granule = granule - lastGranule := by
    unfold sampleCount
    omega
  obtain ⟨hne, heq⟩ := pageMillis_spec (granule - lastGranule) h3
  have hfl : (granule - lastGranule) * 1000 / 48000 < 5864062014806 := by omega
  have hwrap : ∀ m : Int, 0 ≤ m → m < 5864062014806 →
      wrapInt64 (m * millisecond) = m * 1000000 := by
    intro m hm0 hm1
    unfold wrapInt64 millisecond
    omega
  refine ⟨hcount, rfl, ?_, ?_, ?_, by decide!⟩
  · rw [playPages_last]; simp
  · intro hr
    show pageDuration (sampleCount lastGranule granule) = _
    rw [hcount]
    unfold pageDuration
    rw [hne hr]
    exact hwrap _ (by positivity) (by exact_mod_cast hfl)
  · intro hr
    show pageDuration (sampleCount lastGranule granule) = _ ∨
      pageDuration (sampleCount lastGranule granule) = _
    rw [hcount]
    unfold pageDuration
    rcases heq hr with h | h
    · left
      rw [h]
      exact hwrap _ (by positivity) (by exact_mod_cast hfl)
    · right
      have hpos : 0 ≤ pageMillis (granule - lastGranule) := by
        unfold pageMillis F64.trunc
        split <;> positivity
      rw [h] at hpos ⊢
      exact hwrap _ hpos (by
        have : (((granule - lastGranule) * 1000 / 48000 : Nat) : Int) < 5864062014806 := by
          exact_mod_cast hfl
        omega)

/-- C8: the code departs from the claim.  For a first page of 48048 samples the
duration handed to `WriteSample` is 1000 ms, while the floor of
`48048 * 1000 / 48000` is 1001: the quotient `48048 / 48000` is rounded to a
`float64` just below 1.001, the product with 1000 is just below 1001, and the
conversion to `time.Duration` discards the fraction.  A following page of 48240
samples (402 Opus frames of 2.5 ms) gets 1004 ms instead of 1005.  For pages of
960 samples the code gives the 20 ms of the claim, and `lastGranule` follows the
granule position. -/
theorem page_duration_slip :
    pageStep 0 48048 = (1000 * 1000000, 48048) ∧ 48048 * 1000 / 48000 = 1001 ∧
    pageStep 48048 96288 = (1004 * 1000000, 96288) ∧
    (96288 - 48048) * 1000 / 48000 = 1005 ∧
    pageStep 96288 97248 = (20 * 1000000, 97248) := by
  decide!

end PlayFromDisk

namespace Signal

/-! ## Base64 round trip -/

theorem b64Value_b64Char : ∀ i : Fin 64, b64Value (b64Char i.val) = some i.val := by decide

theorem b64Value_b64Char_of_lt (i : Nat) (h : i < 64) : b64Value (b64Char i) = some i :=
  b64Value_b64Char ⟨i, h⟩

theorem b64Char_not_newline : ∀ i : Fin 64, b64Char i.val ≠ 13 ∧ b64Char i.val ≠ 10 := by
  decide

theorem b64Value_padChar : b64Value padChar = none := by decide

theorem ofNat_val_eq (a : Byte) : Byte.ofNat a.val = a := by
  apply Fin.ext
  show a.val % 256 = a.val
  exact Nat.mod_eq_of_lt a.isLt

/-- The three bytes of a group, recovered from its four 6-bit values. -/
theorem group_bytes (a b c : Byte) :
    Byte.ofNat (a.val / 4 * 4 + (a.val % 4 * 16 + b.val / 16) / 16) = a ∧
    Byte.ofNat ((a.val % 4 * 16 + b.val / 16) % 16 * 16 + (b.val % 16 * 4 + c.val / 64) / 4) = b ∧
    Byte.ofNat ((b.val % 16 * 4 + c.val / 64) % 4 * 64 + c.val % 64) = c := by
  have ha := a.isLt
  have hb := b.isLt
  have hc := c.isLt
  refine ⟨?_, ?_, ?_⟩ <;> apply Fin.ext <;> show _ % 256 = _ <;> omega

theorem dropNewlines_base64Encode (bs : List Byte) :
    dropNewlines (base64Encode bs) = base64Encode bs := by
  have hpad : padChar ≠ 13 ∧ padChar ≠ 10 := by decide
  have hch : ∀ i, i < 64 → (b64Char i ≠ 13 ∧ b64Char i ≠ 10) :=
    fun i hi => b64Char_not_newline ⟨i, hi⟩
  induction bs using base64Encode.induct with
  | case1 => rfl
  | case2 a =>
    have ha := a.isLt
    simp [base64Encode, dropNewlines, List.filter, hpad, hch (a.val / 4) (by omega),
      hch (a.val % 4 * 16) (by omega)]
  | case3 a b =>
    have ha := a.isLt
    have hb := b.isLt
    simp [base64Encode, dropNewlines, List.filter, hpad, hch (a.val / 4) (by omega),
      hch (a.val % 4 * 16 + b.val / 16) (by omega), hch (b.val % 16 * 4) (by omega)]
  | case4 a b c rest ih =>
    have ha := a.isLt
    have hb := b.isLt
    have hc := c.isLt
    unfold dropNewlines at ih ⊢
    simp only [base64Encode, List.filter, hch (a.val / 4) (by omega),
      hch (a.val % 4 * 16 + b.val / 16) (by omega), hch (b.val % 16 * 4 + c.val / 64) (by omega),
      hch (c.val % 64) (by omega), ne_eq, not_false_eq_true, and_self, decide_True]
    rw [ih]

theorem decodeQuanta_base64Encode (bs : List Byte) :
    decodeQuanta (base64Encode bs) = some bs := by
  induction bs using base64Encode.induct with
  | case1 => rfl
  | case2 a =>
    have ha := a.isLt
    have h := (group_bytes a 0 0).1
    simp only [Fin.val_zero, Nat.zero_div, Nat.add_zero] at h
    simp [base64Encode, decodeQuanta, b64Value_b64Char_of_lt (a.val / 4) (by omega),
      b64Value_b64Char_of_lt (a.val % 4 * 16) (by omega), b64Value_padChar]
    apply Fin.ext
    show _ % 256 = _
    omega
  | case3 a b =>
    have ha := a.isLt
    have hb := b.isLt
    have h := group_bytes a b 0
    simp only [Fin.val_zero, Nat.zero_div, Nat.add_zero] at h
    simp [base64Encode, decodeQuanta, b64Value_b64Char_of_lt (a.val / 4) (by omega),
      b64Value_b64Char_of_lt (a.val % 4 * 16 + b.val / 16) (by omega),
      b64Value_b64Char_of_lt (b.val % 16 * 4) (by omega), b64Value_padChar, h.1]
    apply Fin.ext
    show _ % 256 = _
    omega
  | case4 a b c rest ih =>
    have ha := a.isLt
    have hb := b.isLt
    have hc := c.isLt
    have h := group_bytes a b c
    have v0 := b64Value_b64Char_of_lt (a.val / 4) (by omega)
    have v1 := b64Value_b64Char_of_lt (a.val % 4 * 16 + b.val / 16) (by omega)
    have v2 := b64Value_b64Char_of_lt (b.val % 16 * 4 + c.val / 64) (by omega)
    have v3 := b64Value_b64Char_of_lt (c.val % 64) (by omega)
    cases hr : base64Encode rest with
    | nil =>
      have hrest : rest = [] := by
        cases rest with
        | nil => rfl
        | cons x xs =>
          cases xs with
          | nil => simp [base64Encode] at hr
          | cons y ys =>
            cases ys with
            | nil => simp [base64Encode] at hr
            | cons z zs => simp [base64Encode] at hr
      subst hrest
      simp [base64Encode, decodeQuanta, v0, v1, v2, v3, h.1, h.2.1, h.2.2]
    | cons x xs =>
      rw [hr] at ih
      simp only [base64Encode, hr, decodeQuanta, v0, v1, v2, v3, ih, h.1, h.2.1, h.2.2]

/-- Decoding an encoded byte string gives it back. -/
theorem base64_roundtrip (bs : List Byte) : base64Decode (base64Encode bs) = some bs := by
  unfold base64Decode
  rw [dropNewlines_base64Encode, decodeQuanta_base64Encode]

end Signal

namespace Signal

/-! ## UTF-8 -/

theorem ofNat_val_of_lt (k : Nat) (h : k < 256) : (Byte.ofNat k).val = k :=
  Nat.mod_eq_of_lt h

/-- A code point is below `0x110000` and is not a surrogate. -/
theorem char_range (c : Char) :
    c.toNat < 0xD800 ∨ (0xDFFF < c.toNat ∧ c.toNat < 0x110000) := by
  have h := c.valid
  simp only [UInt32.isValidChar, Nat.isValidChar] at h
  exact h

/-- Decoding the encoding of a code point gives the code point back. -/
theorem decodeRune_utf8EncodeChar (c : Char) (rest : List Byte) :
    decodeRune (utf8EncodeChar c ++ rest) = some (.valid c, rest) := by
  have hr := char_range c
  have hc : Char.ofNat c.toNat = c := Char.ofNat_toNat c
  unfold utf8EncodeChar
  by_cases h1 : c.toNat < 0x80
  · rw [if_pos h1]
    have e0 : (Byte.ofNat c.toNat).val = c.toNat := ofNat_val_of_lt _ (by omega)
    simp only [List.singleton_append, decodeRune, e0, if_pos h1, hc]
  · rw [if_neg h1]
    by_cases h2 : c.toNat < 0x800
    · rw [if_pos h2]
      have e0 : (Byte.ofNat (0xC0 + c.toNat / 64)).val = 0xC0 + c.toNat / 64 :=
        ofNat_val_of_lt _ (by omega)
      have e1 : (Byte.ofNat (0x80 + c.toNat % 64)).val = 0x80 + c.toNat % 64 :=
        ofNat_val_of_lt _ (by omega)
      have hv : (0xC0 + c.toNat / 64) % 32 * 64 + (0x80 + c.toNat % 64) % 64 = c.toNat := by
        omega
      simp only [List.cons_append, List.nil_append, decodeRune, isCont, e0, e1, hv, hc]
      rw [if_neg (by omega), if_pos (by omega)]
      simp only [Bool.and_eq_true, decide_eq_true_eq]
      rw [if_pos (by omega)]
    · rw [if_neg h2]
      by_cases h3 : c.toNat < 0x10000
      · rw [if_pos h3]
        have e0 : (Byte.ofNat (0xE0 + c.toNat / 4096)).val = 0xE0 + c.toNat / 4096 :=
          ofNat_val_of_lt _ (by omega)
        have e1 : (Byte.ofNat (0x80 + c.toNat / 64 % 64)).val = 0x80 + c.toNat / 64 % 64 :=
          ofNat_val_of_lt _ (by omega)
        have e2 : (Byte.ofNat (0x80 + c.toNat % 64)).val = 0x80 + c.toNat % 64 :=
          ofNat_val_of_lt _ (by omega)
        have hv : (0xE0 + c.toNat / 4096) % 16 * 4096 + (0x80 + c.toNat / 64 % 64) % 64 * 64
            + (0x80 + c.toNat % 64) % 64 = c.toNat := by omega
        simp only [List.cons_append, List.nil_append, decodeRune, isCont, acceptSecond,
          e0, e1, e2, hv, hc]
        rw [if_neg (by omega), if_neg (by omega), if_pos (by omega)]
        have hacc : ((if 0xE0 + c.toNat / 4096 = 0xE0 then
              decide (0xA0 ≤ 0x80 + c.toNat / 64 % 64) && decide (0x80 + c.toNat / 64 % 64 ≤ 0xBF)
            else if 0xE0 + c.toNat / 4096 = 0xED then
              decide (0x80 ≤ 0x80 + c.toNat / 64 % 64) && decide (0x80 + c.toNat / 64 % 64 ≤ 0x9F)
            else if 0xE0 + c.toNat / 4096 = 0xF0 then
              decide (0x90 ≤ 0x80 + c.toNat / 64 % 64) && decide (0x80 + c.toNat / 64 % 64 ≤ 0xBF)
            else if 0xE0 + c.toNat / 4096 = 0xF4 then
              decide (0x80 ≤ 0x80 + c.toNat / 64 % 64) && decide (0x80 + c.toNat / 64 % 64 ≤ 0x8F)
            else decide (0x80 ≤ 0x80 + c.toNat / 64 % 64)
              && decide (0x80 + c.toNat / 64 % 64 ≤ 0xBF)) &&
            (decide (0x80 ≤ 0x80 + c.toNat % 64) && decide (0x80 + c.toNat % 64 ≤ 0xBF))) = true := by
          split_ifs <;> simp only [Bool.and_eq_true, decide_eq_true_eq] <;> omega
        rw [if_pos hacc]
      · rw [if_neg h3]
        have e0 : (Byte.ofNat (0xF0 + c.toNat / 262144)).val = 0xF0 + c.toNat / 262144 :=
          ofNat_val_of_lt _ (by omega)
        have e1 : (Byte.ofNat (0x80 + c.toNat / 4096 % 64)).val = 0x80 + c.toNat / 4096 % 64 :=
          ofNat_val_of_lt _ (by omega)
        have e2 : (Byte.ofNat (0x80 + c.toNat / 64 % 64)).val = 0x80 + c.toNat / 64 % 64 :=
          ofNat_val_of_lt _ (by omega)
        have e3 : (Byte.ofNat (0x80 + c.toNat % 64)).val = 0x80 + c.toNat % 64 :=
          ofNat_val_of_lt _ (by omega)
        have hv : (0xF0 + c.toNat / 262144) % 8 * 262144
            + (0x80 + c.toNat / 4096 % 64) % 64 * 4096
            + (0x80 + c.toNat / 64 % 64) % 64 * 64 + (0x80 + c.toNat % 64) % 64 = c.toNat := by
          omega
        simp only [List.cons_append, List.nil_append, decodeRune, isCont, acceptSecond,
          e0, e1, e2, e3, hv, hc]
        rw [if_neg (by omega), if_neg (by omega), if_neg (by omega), if_pos (by omega)]
        rw [if_pos]
        split_ifs <;> simp only [Bool.and_eq_true, decide_eq_true_eq] <;> omega

theorem toNat_ofNat_of_lt (k : Nat) (h : k < 0xD800) : (Char.ofNat k).toNat = k := by
  have hv : k.isValidChar := Or.inl h
  unfold Char.ofNat
  rw [dif_pos hv]
  simp only [Char.ofNatAux, Char.toNat]
  show (UInt32.ofNat' _ _).toNat = k
  simp [UInt32.ofNat', UInt32.toNat]

theorem utf8EncodeChar_ascii (b : Byte) (hb : b.val < 0x80) :
    utf8EncodeChar (Char.ofNat b.val) = [b] := by
  have e : (Char.ofNat b.val).toNat = b.val := toNat_ofNat_of_lt _ (by omega)
  unfold utf8EncodeChar
  rw [e, if_pos hb]
  congr 1
  apply Fin.ext
  exact Nat.mod_eq_of_lt b.isLt

theorem utf8EncodeChar_ne_nil (c : Char) : utf8EncodeChar c ≠ [] := by
  unfold utf8EncodeChar
  split_ifs <;> simp

end Signal

namespace Signal

/-! ## JSON strings: unquoting what the encoder wrote -/

theorem hexValue_hexDigit : ∀ k : Fin 16, hexValue (hexDigit k.val) = some k.val := by decide

theorem hexValue_hexDigit_of_lt (k : Nat) (h : k < 16) : hexValue (hexDigit k) = some k :=
  hexValue_hexDigit ⟨k, h⟩

theorem prepend_nil (r : Option (List Byte × List Byte)) : prepend [] r = r := by
  cases r with
  | none => rfl
  | some p => rfl

/-- Reading the escape of an ASCII character gives the character. -/
theorem unquoteAux_escapeByte (b : Byte) (hb : b.val < 0x80) (n : Nat) (tail : List Byte) :
    unquoteAux (n + 1) (escapeByte b ++ tail)
      = prepend [b] (unquoteAux n tail) := by
  unfold escapeByte
  by_cases h1 : b = 0x22 ∨ b = 0x5C
  · rw [if_pos h1]
    rcases h1 with rfl | rfl
    · show unquoteAux (n + 1) (0x5C :: 0x22 :: tail) = _
      simp only [unquoteAux, simpleEscape]
      rw [if_neg (by decide), if_pos (by decide), if_neg (by decide), if_pos (by decide)]
    · show unquoteAux (n + 1) (0x5C :: 0x5C :: tail) = _
      simp only [unquoteAux, simpleEscape]
      rw [if_neg (by decide), if_pos (by decide), if_neg (by decide), if_pos (by decide)]
  · rw [if_neg h1]
    by_cases h2 : b = 0x08
    · subst h2; simp [unquoteAux, simpleEscape]
    rw [if_neg h2]
    by_cases h3 : b = 0x0C
    · subst h3; simp [unquoteAux, simpleEscape]
    rw [if_neg h3]
    by_cases h4 : b = 0x0A
    · subst h4; simp [unquoteAux, simpleEscape]
    rw [if_neg h4]
    by_cases h5 : b = 0x0D
    · subst h5; simp [unquoteAux, simpleEscape]
    rw [if_neg h5]
    by_cases h6 : b = 0x09
    · subst h6; simp [unquoteAux, simpleEscape]
    rw [if_neg h6]
    by_cases h7 : b.val < 0x20 ∨ b = 0x26 ∨ b = 0x3C ∨ b = 0x3E
    · rw [if_pos h7]
      have hv0 : hexValue 0x30 = some 0 := by decide
      have hv1 := hexValue_hexDigit_of_lt (b.val / 16) (by omega)
      have hv2 := hexValue_hexDigit_of_lt (b.val % 16) (by omega)
      have e : ((0 * 16 + 0) * 16 + b.val / 16) * 16 + b.val % 16 = b.val := by omega
      show unquoteAux (n + 1) (0x5C :: 0x75 :: 0x30 :: 0x30 :: hexDigit (b.val / 16)
        :: hexDigit (b.val % 16) :: tail) = _
      simp only [unquoteAux, getu4, hv0, hv1, hv2, e]
      rw [if_neg (by decide), if_pos (by decide), if_pos (by decide), if_neg (by omega),
        utf8EncodeChar_ascii b hb]
    · rw [if_neg h7]
      have hq : b ≠ 0x22 := fun h => h1 (Or.inl h)
      have hs : b ≠ 0x5C := fun h => h1 (Or.inr h)
      have hc : ¬ b.val < 0x20 := fun h => h7 (Or.inl h)
      show unquoteAux (n + 1) (b :: tail) = _
      simp only [unquoteAux]
      rw [if_neg hq, if_neg hs, if_neg hc, if_pos hb]

theorem escapeByte_ne_nil (b : Byte) : escapeByte b ≠ [] := by
  unfold escapeByte
  split_ifs <;> simp

theorem escapeRune_ne_nil (r : Rune) : escapeRune r ≠ [] := by
  cases r with
  | invalid => simp [escapeRune]
  | valid c =>
    simp only [escapeRune]
    split_ifs
    · exact escapeByte_ne_nil _
    · simp
    · exact utf8EncodeChar_ne_nil c

/-- Reading what the encoder wrote for a code point gives the encoding of the
code point. -/
theorem unquoteAux_escapeRune (c : Char) (n : Nat) (tail : List Byte) :
    unquoteAux (n + 1) (escapeRune (.valid c) ++ tail)
      = prepend (utf8EncodeChar c) (unquoteAux n tail) := by
  have hcc : Char.ofNat c.toNat = c := Char.ofNat_toNat c
  simp only [escapeRune]
  by_cases h1 : c.toNat < 0x80
  · rw [if_pos h1]
    have hbv : (Byte.ofNat c.toNat).val = c.toNat := ofNat_val_of_lt _ (by omega)
    rw [unquoteAux_escapeByte _ (by rw [hbv]; exact h1)]
    unfold utf8EncodeChar
    rw [if_pos h1]
  · rw [if_neg h1]
    by_cases h2 : c.toNat = 0x2028 ∨ c.toNat = 0x2029
    · rw [if_pos h2]
      have hv0 : hexValue 0x30 = some 0 := by decide
      have hv2 : hexValue 0x32 = some 2 := by decide
      have hv := hexValue_hexDigit_of_lt (c.toNat % 16) (by omega)
      have e : ((2 * 16 + 0) * 16 + 2) * 16 + c.toNat % 16 = c.toNat := by omega
      show unquoteAux (n + 1) (0x5C :: 0x75 :: 0x32 :: 0x30 :: 0x32 :: hexDigit (c.toNat % 16)
        :: tail) = _
      simp only [unquoteAux, getu4, hv0, hv2, hv, e, hcc]
      rw [if_neg (by decide), if_pos (by decide), if_pos (by decide), if_neg (by omega)]
    · rw [if_neg h2]
      have hd := decodeRune_utf8EncodeChar c tail
      have hhead : ∃ b0 more, utf8EncodeChar c = b0 :: more ∧ 0xC0 ≤ b0.val := by
        have hr := char_range c
        unfold utf8EncodeChar
        rw [if_neg h1]
        split_ifs
        · exact ⟨_, _, rfl, by rw [ofNat_val_of_lt _ (by omega)]; omega⟩
        · exact ⟨_, _, rfl, by rw [ofNat_val_of_lt _ (by omega)]; omega⟩
        · exact ⟨_, _, rfl, by rw [ofNat_val_of_lt _ (by omega)]; omega⟩
      obtain ⟨b0, more, hb, hge⟩ := hhead
      rw [hb] at hd ⊢
      have hq : b0 ≠ 0x22 := by
        intro h; rw [h] at hge; exact absurd hge (by decide)
      have hs : b0 ≠ 0x5C := by
        intro h; rw [h] at hge; exact absurd hge (by decide)
      show unquoteAux (n + 1) (b0 :: (more ++ tail)) = _
      simp only [unquoteAux]
      rw [if_neg hq, if_neg hs, if_neg (by omega), if_neg (by omega)]
      have hd2 : decodeRune (b0 :: (more ++ tail)) = some (.valid c, tail) := hd
      rw [hd2]
      simp only [Rune.bytes, hb]

/-- The text that the encoder writes for a sequence of code points. -/
theorem appendStringAux_utf8Encode (cs : List Char) (n : Nat) (hn : cs.length ≤ n) :
    appendStringAux n (utf8Encode cs) = (cs.map (fun c => escapeRune (.valid c))).flatten := by
  induction cs generalizing n with
  | nil =>
    cases n with
    | zero => rfl
    | succ n => simp [appendStringAux, utf8Encode, decodeRune]
  | cons c cs ih =>
    cases n with
    | zero => simp at hn
    | succ n =>
      have hd := decodeRune_utf8EncodeChar c (utf8Encode cs)
      have e : utf8Encode (c :: cs) = utf8EncodeChar c ++ utf8Encode cs := by
        simp [utf8Encode]
      rw [e]
      simp only [appendStringAux, hd, List.map_cons, List.flatten_cons]
      rw [ih n (by simpa using hn)]

theorem length_le_utf8Encode (cs : List Char) : cs.length ≤ (utf8Encode cs).length := by
  induction cs with
  | nil => simp
  | cons c cs ih =>
    have e : utf8Encode (c :: cs) = utf8EncodeChar c ++ utf8Encode cs := by
      simp [utf8Encode]
    have := List.length_pos.2 (utf8EncodeChar_ne_nil c)
    rw [e, List.length_append, List.length_cons]
    omega

theorem length_le_escaped (cs : List Char) :
    cs.length ≤ ((cs.map (fun c => escapeRune (.valid c))).flatten).length := by
  induction cs with
  | nil => simp
  | cons c cs ih =>
    have := List.length_pos.2 (escapeRune_ne_nil (.valid c))
    simp only [List.map_cons, List.flatten_cons, List.length_append, List.length_cons]
    omega

/-- The string literal that the encoder writes for valid UTF-8. -/
theorem appendString_utf8Encode (cs : List Char) :
    appendString (utf8Encode cs)
      = 0x22 :: ((cs.map (fun c => escapeRune (.valid c))).flatten ++ [0x22]) := by
  unfold appendString
  rw [appendStringAux_utf8Encode cs _ (length_le_utf8Encode cs)]

/-- Reading the text that the encoder wrote for a sequence of code points, up to
the closing quote, gives their encoding. -/
theorem unquoteAux_escaped (cs : List Char) (n : Nat) (hn : cs.length < n) (tail : List Byte) :
    unquoteAux n ((cs.map (fun c => escapeRune (.valid c))).flatten ++ 0x22 :: tail)
      = some (utf8Encode cs, tail) := by
  induction cs generalizing n with
  | nil =>
    cases n with
    | zero => simp at hn
    | succ n =>
      show unquoteAux (n + 1) (0x22 :: tail) = _
      simp [unquoteAux, utf8Encode]
  | cons c cs ih =>
    cases n with
    | zero => simp at hn
    | succ n =>
      simp only [List.map_cons, List.flatten_cons, List.append_assoc]
      rw [unquoteAux_escapeRune, ih n (by simpa using hn)]
      simp [prepend, utf8Encode]

theorem unquote_escaped (cs : List Char) (tail : List Byte) :
    unquote ((cs.map (fun c => escapeRune (.valid c))).flatten ++ 0x22 :: tail)
      = some (utf8Encode cs, tail) := by
  unfold unquote
  apply unquoteAux_escaped
  have := length_le_escaped cs
  simp only [List.length_append, List.length_cons]
  omega

end Signal

namespace Signal

/-! ## Parsing what `json.Marshal` wrote -/

/-- A string literal written by the encoder is parsed as that string. -/
theorem parseValue_string (f d : Nat) (cs : List Char) (tail : List Byte) :
    parseValue (f + 1) d
        (0x22 :: ((cs.map (fun c => escapeRune (.valid c))).flatten ++ 0x22 :: tail))
      = some (.string (utf8Encode cs), tail) := by
  have hsp : isSpace 0x22 = false := by decide
  simp [parseValue, skipSpace, hsp, unquote_escaped]

/-- An object of two members with string values, written without white space,
is parsed as these two members. -/
theorem parseValue_object2 (f : Nat) (k1 v1 k2 v2 : List Char) :
    parseValue (f + 4) 0
        (0x7B :: 0x22 :: ((k1.map (fun c => escapeRune (.valid c))).flatten ++ 0x22 :: 0x3A
          :: 0x22 :: ((v1.map (fun c => escapeRune (.valid c))).flatten ++ 0x22 :: 0x2C
          :: 0x22 :: ((k2.map (fun c => escapeRune (.valid c))).flatten ++ 0x22 :: 0x3A
          :: 0x22 :: ((v2.map (fun c => escapeRune (.valid c))).flatten ++ 0x22
          :: [0x7D])))))
      = some (.object [(utf8Encode k1, .string (utf8Encode v1)),
          (utf8Encode k2, .string (utf8Encode v2))], []) := by
  have h1 : isSpace 0x7B = false := by decide
  have h2 : isSpace 0x22 = false := by decide
  have h3 : isSpace 0x3A = false := by decide
  have h4 : isSpace 0x2C = false := by decide
  have h5 : isSpace 0x7D = false := by decide
  have hd : (0 : Nat) < maxNestingDepth := by decide
  have hv1 : ∀ tail, parseValue (f + 2) 1
      (0x22 :: ((v1.map (fun c => escapeRune (.valid c))).flatten ++ 0x22 :: tail))
      = some (.string (utf8Encode v1), tail) := fun tail => parseValue_string (f + 1) 1 v1 tail
  have hv2 := fun tail => parseValue_string f 1 v2 tail
  have hm2 : parseMembers (f + 2) 1
      (0x22 :: ((k2.map (fun c => escapeRune (.valid c))).flatten ++ 0x22 :: 0x3A
          :: 0x22 :: ((v2.map (fun c => escapeRune (.valid c))).flatten ++ 0x22
          :: [0x7D])))
      = some ([(utf8Encode k2, .string (utf8Encode v2))], []) := by
    rw [parseMembers]
    simp [skipSpace, h2, h3, h5, unquote_escaped, hv2]
  have hm1 : parseMembers (f + 3) 1
      (0x22 :: ((k1.map (fun c => escapeRune (.valid c))).flatten ++ 0x22 :: 0x3A
          :: 0x22 :: ((v1.map (fun c => escapeRune (.valid c))).flatten ++ 0x22 :: 0x2C
          :: 0x22 :: ((k2.map (fun c => escapeRune (.valid c))).flatten ++ 0x22 :: 0x3A
          :: 0x22 :: ((v2.map (fun c => escapeRune (.valid c))).flatten ++ 0x22
          :: [0x7D])))))
      = some ([(utf8Encode k1, .string (utf8Encode v1)),
          (utf8Encode k2, .string (utf8Encode v2))], []) := by
    rw [parseMembers]
    simp [skipSpace, h2, h3, h4, unquote_escaped, hv1, hm2]
  rw [parseValue]
  simp [skipSpace, h1, h2, hd, hm1]

end Signal

namespace Signal

/-! ## `encode` and `decode` (C1, C2) -/

/-- The name of a known type is ASCII text that `SDPType.UnmarshalJSON` maps
back to the type. -/
theorem sdpType_name (t : SDPType) (ht : t ≠ .unknown) :
    ∃ cs : List Char, t.string = utf8Encode cs ∧
      unmarshalSDPType (.string (utf8Encode cs)) = some t := by
  cases t with
  | unknown => exact absurd rfl ht
  | offer => exact ⟨['o', 'f', 'f', 'e', 'r'], by decide!, by decide!⟩
  | pranswer => exact ⟨['p', 'r', 'a', 'n', 's', 'w', 'e', 'r'], by decide!, by decide!⟩
  | answer => exact ⟨['a', 'n', 's', 'w', 'e', 'r'], by decide!, by decide!⟩
  | rollback => exact ⟨['r', 'o', 'l', 'l', 'b', 'a', 'c', 'k'], by decide!, by decide!⟩

/-- The text that `json.Marshal` writes for a description with a known type and
valid UTF-8 is parsed as an object with the members `type` and `sdp`. -/
theorem parseJSON_marshalText (t : SDPType) (tcs cs : List Char)
    (ht : t.string = utf8Encode tcs) :
    parseJSON (marshalText (some ⟨t, utf8Encode cs⟩))
      = some (.object [(utf8Encode ['t', 'y', 'p', 'e'], .string (utf8Encode tcs)),
          (utf8Encode ['s', 'd', 'p'], .string (utf8Encode cs))]) := by
  have hk1 : ascii "type"
      = ((['t', 'y', 'p', 'e']).map (fun c => escapeRune (.valid c))).flatten := by decide!
  have hk2 : ascii "sdp"
      = ((['s', 'd', 'p']).map (fun c => escapeRune (.valid c))).flatten := by decide!
  have hform : marshalText (some ⟨t, utf8Encode cs⟩)
      = 0x7B :: 0x22 :: (((['t', 'y', 'p', 'e']).map (fun c => escapeRune (.valid c))).flatten
          ++ 0x22 :: 0x3A
          :: 0x22 :: ((tcs.map (fun c => escapeRune (.valid c))).flatten ++ 0x22 :: 0x2C
          :: 0x22 :: (((['s', 'd', 'p']).map (fun c => escapeRune (.valid c))).flatten
          ++ 0x22 :: 0x3A
          :: 0x22 :: ((cs.map (fun c => escapeRune (.valid c))).flatten ++ 0x22
          :: [0x7D])))) := by
    simp only [marshalText, ht, appendString_utf8Encode, ← hk1, ← hk2, List.append_assoc,
      List.cons_append, List.nil_append]
  have hlen : ∃ g, 2 * (marshalText (some ⟨t, utf8Encode cs⟩)).length + 1 = g + 4 := by
    refine ⟨2 * (marshalText (some ⟨t, utf8Encode cs⟩)).length - 3, ?_⟩
    have : 2 ≤ (marshalText (some ⟨t, utf8Encode cs⟩)).length := by
      rw [hform]
      simp only [List.length_cons]
      omega
    omega
  obtain ⟨g, hg⟩ := hlen
  unfold parseJSON
  rw [hg, hform, parseValue_object2]
  simp [skipSpace]

/-- Unmarshalling what `json.Marshal` wrote for a description with a known type
and valid UTF-8 gives the description, whatever the target held. -/
theorem unmarshal_marshalText (t : SDPType) (ht : t ≠ .unknown) (cs : List Char)
    (out : SessionDescription) :
    unmarshal (marshalText (some ⟨t, utf8Encode cs⟩)) out = some ⟨t, utf8Encode cs⟩ := by
  obtain ⟨tcs, hname, hback⟩ := sdpType_name t ht
  have hk1 : keyIs (utf8Encode ['t', 'y', 'p', 'e']) (ascii "TYPE") = true := by decide!
  have hk2 : keyIs (utf8Encode ['s', 'd', 'p']) (ascii "TYPE") = false := by decide!
  have hk3 : keyIs (utf8Encode ['s', 'd', 'p']) (ascii "SDP") = true := by decide!
  unfold unmarshal
  rw [parseJSON_marshalText t tcs cs hname]
  simp [fill, setField, hk1, hk2, hk3, hback]

/-- C1: signalling round trip.  For every session description `d` whose type is
offer, pranswer, answer or rollback and whose SDP text is valid UTF-8, `encode`
does not panic and returns the standard padded base64 of the JSON text of `d`,
and `decode` of that string, with a pointer to any description `out`, does not
panic and leaves the target equal to `d`.  The two programs contain the same
`encode` and `decode`, so this holds for both. -/
theorem encode_decode_roundtrip (d out : SessionDescription)
    (htype : d.type = .offer ∨ d.type = .pranswer ∨ d.type = .answer ∨ d.type = .rollback)
    (hsdp : ValidUTF8 d.sdp) :
    ∃ json, marshal (some d) = some json ∧ encode (some d) = .ok (base64Encode json) ∧
      decode (base64Encode json) out = .ok d := by
  obtain ⟨cs, hcs⟩ := hsdp
  have hd : d = ⟨d.type, utf8Encode cs⟩ := by
    cases d
    simp only [SessionDescription.mk.injEq, true_and]
    exact hcs
  have ht : d.type ≠ .unknown := by
    rcases htype with h | h | h | h <;> rw [h] <;> decide
  have hu := unmarshal_marshalText d.type ht cs out
  rw [← hd] at hu
  refine ⟨marshalText (some d), rfl, rfl, ?_⟩
  unfold decode
  rw [base64_roundtrip]
  simp only [hu]

/-- Witness of `encode_decode_roundtrip`: an offer with the SDP text `v=0`,
decoded into the zero value. -/
theorem encode_decode_roundtrip_witness :
    ∃ json, marshal (some ⟨.offer, utf8Encode ['v', '=', '0']⟩) = some json ∧
      encode (some ⟨.offer, utf8Encode ['v', '=', '0']⟩) = .ok (base64Encode json) ∧
      decode (base64Encode json) ⟨.unknown, []⟩ = .ok ⟨.offer, utf8Encode ['v', '=', '0']⟩ :=
  encode_decode_roundtrip ⟨.offer, utf8Encode ['v', '=', '0']⟩ ⟨.unknown, []⟩ (Or.inl rfl)
    ⟨['v', '=', '0'], rfl⟩

/-- C2: the outcomes of `decode`.  The call panics exactly when the input is
not accepted by the standard padded base64 decoder, or the decoded bytes are
not accepted by `json.Unmarshal` for a session description; it returns exactly
when both are accepted, and then the target holds what `json.Unmarshal` stored.
There is no other outcome. -/
theorem decode_outcomes (input : GoString) (obj : SessionDescription) :
    (∀ p, decode input obj = .error p ↔
      ((p = .base64Corrupt ∧ base64Decode input = none) ∨
       (p = .jsonUnmarshal ∧ ∃ b, base64Decode input = some b ∧ unmarshal b obj = none))) ∧
    (∀ v, decode input obj = .ok v ↔
      ∃ b, base64Decode input = some b ∧ unmarshal b obj = some v) ∧
    ((∃ p, decode input obj = .error p) ↔
      ¬ ∃ b v, base64Decode input = some b ∧ unmarshal b obj = some v) := by
  unfold decode
  cases hb : base64Decode input with
  | none =>
    refine ⟨fun p => ?_, fun v => ?_, ?_⟩
    · simp only [Except.error.injEq, and_true, reduceCtorEq, false_and, exists_false, and_false,
        or_false]
      exact eq_comm
    · simp
    · simp
  | some b =>
    cases hu : unmarshal b obj with
    | none =>
      refine ⟨fun p => ?_, fun v => ?_, ?_⟩
      · simp only [Except.error.injEq, reduceCtorEq, and_false, Option.some.injEq, exists_eq_left',
          hu, and_true, false_or]
        exact eq_comm
      · simp [hu]
      · simp [hu]
    | some o =>
      refine ⟨fun p => ?_, fun v => ?_, ?_⟩
      · simp [hu]
      · simp [hu]
      · simp [hu]

end Signal
